import Mathlib

/-!
Verification development for the heroku-code-mcp server.

This file gives a shallow embedding, in Lean 4, of the parts of the
TypeScript source that the verified properties speak about:

* `src/safety/write-confirmation.ts` — `stableStringify` and
  `createWriteConfirmationToken`;
* `src/execute/heroku-executor.ts` — the `HerokuExecutor` pipeline
  (validation, dry-run/write gate, retry loop, read cache, redaction,
  truncation);
* `scripts` normalizer module — `sanitizeParamName`, `refToParamName`,
  `normalizeHrefToPath`, `normalizeHerokuSchema`;
* `src/auth/token-store.ts` — `EncryptedTokenStore.get` / `set`.

JavaScript values flowing through these functions are modelled by the
`Json` inductive below (JSON numbers are modelled as integers; none of
the verified properties depends on float formatting).  External
platform primitives that the source calls but does not define —
`node:crypto` HMAC-SHA256 digests, AES-256-GCM, `Ajv` compiled
validators, `JSON.parse`, and WHATWG `new URL` resolution — are taken
as explicit function parameters, so every theorem quantifies over their
behaviour; everything the repository itself defines is translated
directly.  JS strings are modelled by Lean `String` (sequences of
scalar values); code-unit and scalar-value views agree on the
basic-multilingual-plane strings these APIs process.
-/

set_option maxHeartbeats 1000000

namespace HerokuMCP

/-- Model of a JavaScript/JSON value (`JsonValue` in `src/types.ts`). -/
inductive Json where
  | null : Json
  | bool (b : Bool) : Json
  | num (n : Int) : Json
  | str (s : String) : Json
  | arr (items : List Json) : Json
  | obj (fields : List (String × Json)) : Json
deriving Repr

/-- Character-list `take`-based prefix of a string (JS `slice(0, n)` on the
BMP strings at hand). -/
def strTake (s : String) (n : Nat) : String := String.mk (s.toList.take n)

/-- Character-list `drop` on a string. -/
def strDrop (s : String) (n : Nat) : String := String.mk (s.toList.drop n)

/-- Prefix test on strings via character lists. -/
def strStartsWith (s p : String) : Bool := p.toList.isPrefixOf s.toList

/-- Split of a character list at every occurrence of a separator. -/
def splitOnChar (sep : Char) : List Char → List (List Char)
  | [] => [[]]
  | c :: rest =>
      match splitOnChar sep rest with
      | [] => [[c]]
      | g :: gs => if c = sep then [] :: g :: gs else (c :: g) :: gs

/-- JS whitespace test on the ASCII whitespace characters. -/
def isJsWhitespace (c : Char) : Bool :=
  [(9 : UInt32), 10, 11, 12, 13, 32].contains c.val

/-- Model of `String.prototype.trim` on ASCII data. -/
def strTrim (s : String) : String :=
  String.mk (((s.toList.dropWhile isJsWhitespace).reverse.dropWhile
    isJsWhitespace).reverse)

/-- Result of the JS `typeof` operator on a modelled value. -/
def jsTypeof : Json → String
  | .null => "object"
  | .bool _ => "boolean"
  | .num _ => "number"
  | .str _ => "string"
  | .arr _ => "object"
  | .obj _ => "object"

/-- Lexicographic code-point comparison of character lists; this is the
ordering JS `Array.prototype.sort()` applies to the (BMP) strings at hand. -/
def charListLe : List Char → List Char → Bool
  | [], _ => true
  | _ :: _, [] => false
  | a :: as, b :: bs => if a = b then charListLe as bs else decide (a < b)

/-- String comparison used to model the default JS sort order. -/
def strLe (a b : String) : Bool := charListLe a.toList b.toList

/-- Model of `Array.prototype.sort()` on a list of (distinct) keys. -/
def sortKeysJS (keys : List String) : List String :=
  List.insertionSort (fun a b => strLe a b = true) keys

/-- Association-list read, modelling `record[key]` / `Map.get` (first match). -/
def mapGet? {α : Type} (m : List (String × α)) (k : String) : Option α :=
  (m.find? (fun kv => kv.1 = k)).map Prod.snd

/-- Association-list write, modelling `map.set(key, value)`: replace the
binding if the key is present, otherwise append a new binding. -/
def mapSet {α : Type} : List (String × α) → String → α → List (String × α)
  | [], k, v => [(k, v)]
  | (k', v') :: rest, k, v =>
      if k' = k then (k, v) :: rest else (k', v') :: mapSet rest k v

/-- Membership test on the key set, modelling `key in record` / `map.has`. -/
def mapHas {α : Type} (m : List (String × α)) (k : String) : Bool :=
  (m.find? (fun kv => kv.1 = k)).isSome

/-- Hexadecimal digit (lowercase), for `\u00XX` escapes. -/
def hexDigit (n : Nat) : Char :=
  if n < 10 then Char.ofNat (48 + n) else Char.ofNat (97 + (n - 10))

/-- Escape of one character inside a JSON string literal, following
`JSON.stringify` (quote, backslash, and control characters). -/
def escapeJsonChar (c : Char) : String :=
  if c.val = 34 then "\\\""
  else if c.val = 92 then "\\\\"
  else if c.val < 32 then
    if c.val = 8 then "\\b"
    else if c.val = 9 then "\\t"
    else if c.val = 10 then "\\n"
    else if c.val = 12 then "\\f"
    else if c.val = 13 then "\\r"
    else
      "\\u00" ++ String.mk [hexDigit (c.toNat / 16), hexDigit (c.toNat % 16)]
  else String.singleton c

/-- Model of `JSON.stringify` applied to a string. -/
def jsonStringifyString (s : String) : String :=
  "\"" ++ String.join (s.toList.map escapeJsonChar) ++ "\""

mutual

/-- Model of `JSON.stringify` on a whole modelled value (key order of each
object is preserved; no `undefined` occurs in a modelled value). -/
def jsonStringify : Json → String
  | .null => "null"
  | .bool b => if b then "true" else "false"
  | .num n => toString n
  | .str s => jsonStringifyString s
  | .arr items => "[" ++ String.intercalate (",") (jsonStringifyList items) ++ "]"
  | .obj fields => "\x7b" ++ String.intercalate (",") (jsonStringifyFields fields) ++ "\x7d"

def jsonStringifyList : List Json → List String
  | [] => []
  | x :: rest => jsonStringify x :: jsonStringifyList rest

def jsonStringifyFields : List (String × Json) → List String
  | [] => []
  | (k, v) :: rest =>
      (jsonStringifyString k ++ ":" ++ jsonStringify v) :: jsonStringifyFields rest

end

mutual

/-- Model of `stableStringify` from `src/safety/write-confirmation.ts`:
object keys are emitted in ascending sorted order (`Object.keys(..).sort()`,
each value fetched back by key), array order is preserved, and primitives
go through `JSON.stringify`.  The source's `value === null || value ===
undefined` branch yields the literal string `"null"`; `Json.null` models
both, `undefined` never occurring inside JSON data.  The per-key lookup of
`record[key]` is modelled by stringifying the fields in order first and then
reading the stringified entry list by key, which agrees with the source for
every object (JS objects have no duplicate keys). -/
def stableStringify : Json → String
  | .null => "null"
  | .bool b => if b then "true" else "false"
  | .num n => toString n
  | .str s => jsonStringifyString s
  | .arr items => "[" ++ String.intercalate (",") (stableStringifyList items) ++ "]"
  | .obj fields =>
      let entries := stableStringifyFields fields
      let keys := sortKeysJS (fields.map Prod.fst)
      "\x7b" ++ String.intercalate (",")
        (keys.map (fun k =>
          jsonStringifyString k ++ ":" ++ ((mapGet? entries k).getD ("null"))))
        ++ "\x7d"

def stableStringifyList : List Json → List String
  | [] => []
  | x :: rest => stableStringify x :: stableStringifyList rest

def stableStringifyFields : List (String × Json) → List (String × String)
  | [] => []
  | (k, v) :: rest => (k, stableStringify v) :: stableStringifyFields rest

end

/-- Input record of `createWriteConfirmationToken`
(`src/safety/write-confirmation.ts`).  `pathParams` and `queryParams` are
the JS records passed by the executor, kept in their JS key order. -/
structure WriteConfirmationInput where
  secret : String
  userId : String
  operationId : String
  pathParams : List (String × String)
  queryParams : List (String × Json)
  body : Json

/-- View of a path-parameter record as a JSON object value. -/
def pathParamsJson (pp : List (String × String)) : Json :=
  .obj (pp.map (fun kv => (kv.1, .str kv.2)))

/-- View of a query-parameter record as a JSON object value. -/
def queryParamsJson (qp : List (String × Json)) : Json :=
  .obj qp

/-- Model of `createWriteConfirmationToken`: join the five payload pieces
with `"|"`, take an HMAC-SHA256 digest in base64url (the `node:crypto`
primitive, passed in as `hmacB64url secret payload`), and keep the first
48 characters. -/
def createWriteConfirmationToken
    (hmacB64url : String → String → String)
    (input : WriteConfirmationInput) : String :=
  let payload :=
    input.userId ++ "|" ++ input.operationId ++ "|"
      ++ stableStringify (pathParamsJson input.pathParams) ++ "|"
      ++ stableStringify (queryParamsJson input.queryParams) ++ "|"
      ++ stableStringify input.body
  strTake (hmacB64url input.secret payload) 48

/-- ASCII lowercase of a string (the case folding JS applies to the header
names and patterns at hand, which are all ASCII). -/
def asciiLower (s : String) : String :=
  String.mk (s.toList.map Char.toLower)

/-- ASCII uppercase of a string, modelling `toUpperCase()` on ASCII data. -/
def asciiUpper (s : String) : String :=
  String.mk (s.toList.map Char.toUpper)

/-- Infix test on character lists (Boolean counterpart of `List.IsInfix`). -/
def listIsInfixOf (needle : List Char) : List Char → Bool
  | [] => needle.isEmpty
  | c :: rest => needle.isPrefixOf (c :: rest) || listIsInfixOf needle rest

/-- Substring test, modelling `String.prototype.includes` / a literal-only
regular expression `.test`. -/
def containsSubstring (hay needle : String) : Bool :=
  listIsInfixOf needle.toList hay.toList

/-- Test of `SENSITIVE_HEADER_PATTERN = /authorization|cookie|set-cookie|x-api-key/i`
against a header name: some alternative occurs in the name, case-insensitively. -/
def sensitiveHeaderTest (name : String) : Bool :=
  let h := asciiLower name
  [("authorization" : String), "cookie", "set-cookie", "x-api-key"].any
    (fun p => containsSubstring h p)

/-- Test of `SENSITIVE_BODY_KEY_PATTERN = /(token|authorization|password|secret)/i`
against an object key. -/
def sensitiveBodyKeyTest (key : String) : Bool :=
  let h := asciiLower key
  [("token" : String), "authorization", "password", "secret"].any
    (fun p => containsSubstring h p)

mutual

/-- Model of `redactBody` (`src/execute/heroku-executor.ts`): map over
arrays, rebuild objects replacing the value of every key matching the
sensitive-body pattern with the string literal `"[REDACTED]"`, and return
every other value (null, booleans, numbers, strings) unchanged. -/
def redactBody : Json → Json
  | .arr items => .arr (redactBodyList items)
  | .obj fields => .obj (redactBodyFields fields)
  | v => v

def redactBodyList : List Json → List Json
  | [] => []
  | x :: rest => redactBody x :: redactBodyList rest

def redactBodyFields : List (String × Json) → List (String × Json)
  | [] => []
  | (k, v) :: rest =>
      (if sensitiveBodyKeyTest k then (k, Json.str ("[REDACTED]"))
       else (k, redactBody v)) :: redactBodyFields rest

end

/-- Error value thrown by the executor (`ToolError` class). -/
structure ToolError where
  message : String
  code : String
  status : Option Nat := none
deriving Repr, DecidableEq

/-- Subset of `AppConfig` (`src/config.ts`) that the executor reads.
`maxRetries` and the two size limits are non-negative integers by the
config schema; `readCacheTtlMs` is kept as `Int` because the source
guards it with `<= 0`. -/
structure AppConfig where
  herokuApiBaseUrl : String
  herokuAcceptHeader : String
  allowWrites : Bool
  requestTimeoutMs : Nat
  maxRetries : Nat
  readCacheTtlMs : Int
  executeMaxBodyBytes : Nat
  executeBodyPreviewChars : Nat
  writeConfirmationSecret : String

/-- Path parameter of an operation (`PathParameter` in `src/types.ts`). -/
structure PathParameter where
  name : String
  sourceRef : Option String := none
deriving Repr, DecidableEq

/-- Canonical operation (`HerokuOperation` in `src/types.ts`). -/
structure HerokuOperation where
  operationId : String
  method : String
  pathTemplate : String
  rawHref : String
  rel : Option String := none
  title : Option String := none
  description : Option String := none
  definitionName : String := ""
  requestSchema : Option Json := none
  targetSchemaRef : Option String := none
  pathParams : List PathParameter := []
  requiredParams : List String := []
  isMutating : Bool
  searchText : String := ""

/-- Input of one `execute` call (`ExecuteRequest` in `src/types.ts`).
`none` models an absent (`undefined`) field.  Query-parameter values are
modelled as arbitrary JS values so that the `typeof` guard in
`validateQueryParams` is meaningful. -/
structure ExecuteRequest where
  operation_id : String
  path_params : Option (List (String × String)) := none
  query_params : Option (List (String × Json)) := none
  body : Option Json := none
  dry_run : Option Bool := none
  confirm_write_token : Option String := none

/-- Request envelope returned inside every `ExecuteResponse`. -/
structure RequestEnvelope where
  method : String
  url : String
  operation_id : String
deriving Repr, DecidableEq

/-- Response of one `execute` call (`ExecuteResponse` in `src/types.ts`).
`warnings = none` models an absent `warnings` field. -/
structure ExecuteResponse where
  request : RequestEnvelope
  status : Nat
  headers : List (String × String)
  body : Json
  request_id : Option String := none
  warnings : Option (List String) := none

/-- Read-cache entry (`CachedReadEntry`): absolute expiry and snapshot. -/
structure CachedReadEntry where
  expiresAt : Int
  response : ExecuteResponse

/-- The executor's in-memory read cache, modelling its JS `Map`. -/
abbrev ReadCache := List (String × CachedReadEntry)

/-- Upstream HTTP response as the executor consumes it: status, headers
(name/value pairs as iterated by `Headers.forEach`), and the raw body
text.  `ok` is the Fetch `Response.ok` predicate. -/
structure UpstreamResponse where
  status : Nat
  headers : List (String × String)
  bodyText : String

/-- Fetch `Response.ok`: status in the inclusive range 200–299. -/
def UpstreamResponse.ok (r : UpstreamResponse) : Bool :=
  decide (200 ≤ r.status) && decide (r.status ≤ 299)

/-- Case-insensitive header read, modelling `Headers.get`. -/
def headersGet (hs : List (String × String)) (name : String) : Option String :=
  (hs.find? (fun kv => asciiLower kv.1 = asciiLower name)).map Prod.snd

/-- Outcome of one `fetch` attempt: a response, an abort (the per-attempt
timeout fired, surfacing as an `AbortError`), or another network error
carrying its `String(error)` rendering. -/
inductive FetchOutcome where
  | success (r : UpstreamResponse)
  | abortError
  | networkError (message : String)

/-- External platform primitives the executor calls but the repository
does not define.  `hmacB64url` is the `node:crypto` HMAC-SHA256/base64url
digest; `ajvValidate s c` is the Ajv-compiled validator of schema `s`
applied to candidate `c`, with `ajvErrorsText` its error rendering;
`jsonParse` is `JSON.parse` (`none` = parse failure); `buildUrl base path
query` is `new URL(path, base)` followed by `searchParams.set` for each
query pair and `toString()`. -/
structure ExternalFns where
  hmacB64url : String → String → String
  ajvValidate : Json → Json → Bool
  ajvErrorsText : Json → Json → String
  jsonParse : String → Option Json
  buildUrl : String → String → List (String × String) → String

/-- Model of `validatePathParams`: walk the declared path parameters in
order and fail on the first one that is absent from the request record or
bound to the empty string. -/
def validatePathParams (operation : HerokuOperation)
    (pathParams : List (String × String)) : Except ToolError Unit :=
  match operation.pathParams.find?
      (fun param => !mapHas pathParams param.name
        || decide (mapGet? pathParams param.name = some (""))) with
  | some param =>
      .error { message := "Missing required path parameter: " ++ param.name,
               code := "VALIDATION_ERROR", status := some 400 }
  | none => .ok ()

/-- Model of `validateQueryParams`: fail on the first entry whose value is
not of JS type string, number or boolean. -/
def validateQueryParams (queryParams : List (String × Json)) :
    Except ToolError Unit :=
  match queryParams.find?
      (fun kv => !([("string" : String), "number", "boolean"].contains (jsTypeof kv.2))) with
  | some kv =>
      .error { message := "Invalid query parameter type for " ++ kv.1,
               code := "VALIDATION_ERROR", status := some 400 }
  | none => .ok ()

/-- Computation of the schema handed to `ajv.compile`: the operation's
request schema spread together with the root schema's `definitions`. -/
def schemaWithDefinitions (requestSchema : Json) (rootSchema : Json) : Json :=
  let defs :=
    match rootSchema with
    | .obj fields => (mapGet? fields ("definitions")).getD .null
    | _ => .null
  match requestSchema with
  | .obj fields =>
      .obj ((fields.filter (fun kv => kv.1 ≠ "definitions")) ++ [("definitions", defs)])
  | other => other

/-- Model of `validateBody` plus `getValidator`: nothing to check without a
request schema; `SCHEMA_UNAVAILABLE` when a validator is needed but the
root schema is absent; otherwise run the compiled validator on
`body ?? {}` (both `undefined` and `null` collapse to `{}`). -/
def validateBody (ext : ExternalFns) (rootSchema : Option Json)
    (operation : HerokuOperation) (body : Option Json) : Except ToolError Unit :=
  match operation.requestSchema with
  | none => .ok ()
  | some schema =>
      match rootSchema with
      | none =>
          .error { message := "Schema catalog is not initialized",
                   code := "SCHEMA_UNAVAILABLE", status := some 503 }
      | some root =>
          let compiled := schemaWithDefinitions schema root
          let candidate :=
            match body with
            | none => Json.obj []
            | some .null => Json.obj []
            | some v => v
          if ext.ajvValidate compiled candidate then .ok ()
          else
            .error { message := "Request body validation failed: "
                       ++ ext.ajvErrorsText compiled candidate,
                     code := "VALIDATION_ERROR", status := some 400 }

/-- Uppercase hexadecimal digit, for percent-encoding. -/
def hexDigitUpper (n : Nat) : Char :=
  if n < 10 then Char.ofNat (48 + n) else Char.ofNat (65 + (n - 10))

/-- Unreserved characters of `encodeURIComponent`:
letters, digits, and `- _ . ! ~ * ' ( )`. -/
def isUriUnreserved (c : Char) : Bool :=
  c.isAlpha || c.isDigit
    || [(45 : UInt32), 95, 46, 33, 126, 42, 39, 40, 41].contains c.val

/-- Percent-encoding of one byte (uppercase hex, as JS emits). -/
def percentEncodeByte (b : UInt8) : String :=
  String.mk [Char.ofNat 37, hexDigitUpper (b.toNat / 16), hexDigitUpper (b.toNat % 16)]

/-- Model of the JS `encodeURIComponent` builtin: unreserved characters
pass through, every other character is UTF-8 encoded and percent-escaped. -/
def encodeURIComponent (s : String) : String :=
  String.join (s.toList.map (fun c =>
    if isUriUnreserved c then String.singleton c
    else String.join ((String.utf8EncodeChar c).map percentEncodeByte)))

/-- Fuel-indexed scanner behind `replaceAllStr`; consumes at least one
character of the subject per step, so `fuel = length` suffices. -/
def replaceAllCharsAux (pat rep : List Char) :
    Nat → List Char → List Char
  | _, [] => []
  | 0, s => s
  | fuel + 1, s@(c :: rest) =>
      if pat ≠ [] && pat.isPrefixOf s then
        rep ++ replaceAllCharsAux pat rep fuel (s.drop pat.length)
      else c :: replaceAllCharsAux pat rep fuel rest

/-- Model of `String.prototype.replaceAll` with a plain (non-pattern)
search string: replace non-overlapping occurrences left to right. -/
def replaceAllStr (s pat rep : String) : String :=
  String.mk (replaceAllCharsAux pat.toList rep.toList s.toList.length s.toList)

/-- Model of `renderPath`: substitute `{name}` by the URI-encoded supplied
value for each declared parameter, skipping parameters the request does
not bind. -/
def renderPath (operation : HerokuOperation)
    (pathParams : List (String × String)) : String :=
  operation.pathParams.foldl
    (fun output param =>
      match mapGet? pathParams param.name with
      | none => output
      | some raw =>
          replaceAllStr output ("\x7b" ++ param.name ++ "\x7d") (encodeURIComponent raw))
    operation.pathTemplate

/-- The JS `String(value)` coercion on the primitive values that reach the
query-string builder (validated to be strings, numbers or booleans). -/
def jsStringOfPrim : Json → String
  | .str s => s
  | .num n => toString n
  | .bool b => if b then "true" else "false"
  | .null => "null"
  | .arr _ => ""
  | .obj _ => "[object Object]"

/-- Outcome of `safeSerialize`: a string is returned as itself, any other
value through `JSON.stringify`; serialization of tree-shaped data never
throws, so the `undefined` branch of the source is unreachable here. -/
def safeSerialize (value : Json) : Option String :=
  match value with
  | .str s => some s
  | v => some (jsonStringify v)

/-- Result pair of `truncateBodyForOutput`. -/
structure TruncateResult where
  body : Json
  warnings : List String

/-- Model of `truncateBodyForOutput`: serialize the value; if its UTF-8
byte length stays within `executeMaxBodyBytes`, pass the value through
with no warnings; otherwise replace it with the truncation envelope and
emit the `response_body_truncated` warning. -/
def truncateBodyForOutput (cfg : AppConfig) (value : Json) : TruncateResult :=
  match safeSerialize value with
  | none => { body := value, warnings := [] }
  | some serialized =>
      let sizeBytes := serialized.utf8ByteSize
      if sizeBytes ≤ cfg.executeMaxBodyBytes then
        { body := value, warnings := [] }
      else
        let preview := strTake serialized cfg.executeBodyPreviewChars
        { body := .obj
            [("truncated", .bool true),
             ("original_size_bytes", .num (Int.ofNat sizeBytes)),
             ("preview", .str preview),
             ("preview_is_partial", .bool (decide (preview.length < serialized.length)))],
          warnings :=
            ["response_body_truncated: " ++ toString sizeBytes
              ++ " bytes exceeded EXECUTE_MAX_BODY_BYTES="
              ++ toString cfg.executeMaxBodyBytes] }

/-- Model of `buildErrorSuffix`: empty for an empty serialization, else a
`body_preview` clamped to `executeBodyPreviewChars`. -/
def buildErrorSuffix (cfg : AppConfig) (body : Json) : String :=
  match safeSerialize body with
  | none => ""
  | some serialized =>
      if serialized.length = 0 then ""
      else " body_preview=" ++ strTake serialized cfg.executeBodyPreviewChars

/-- One traversal of the `fetchWithRetry` loop body.  `attempt` is the
1-indexed attempt counter of the source loop and `fuel` the number of
loop iterations left (`maxAttempts - attempt + 1`); the fuel-exhausted
case is the source's unreachable post-loop `REQUEST_FAILED` throw.  The
returned `Nat` counts how many times `fetchFn` was invoked.  The oracle
maps the attempt number to that attempt's outcome. -/
def retryLoop (cfg : AppConfig) (oracle : Nat → FetchOutcome)
    (idempotent : Bool) (maxAttempts : Nat) :
    Nat → Nat → Except ToolError UpstreamResponse × Nat
  | _, 0 =>
      (.error { message := "Unexpected retry termination",
                code := "REQUEST_FAILED", status := some 502 }, 0)
  | attempt, fuel + 1 =>
      match oracle attempt with
      | .success r =>
          if !idempotent || attempt = maxAttempts then (.ok r, 1)
          else if r.status = 429 || 500 ≤ r.status then
            let next := retryLoop cfg oracle idempotent maxAttempts (attempt + 1) fuel
            (next.1, next.2 + 1)
          else (.ok r, 1)
      | .abortError =>
          if maxAttempts ≤ attempt || !idempotent then
            (.error { message := "Heroku API request timeout after "
                        ++ toString cfg.requestTimeoutMs ++ "ms",
                      code := "REQUEST_TIMEOUT", status := some 504 }, 1)
          else
            let next := retryLoop cfg oracle idempotent maxAttempts (attempt + 1) fuel
            (next.1, next.2 + 1)
      | .networkError msg =>
          if maxAttempts ≤ attempt || !idempotent then
            (.error { message := "Heroku API request failed: " ++ msg,
                      code := "REQUEST_FAILED", status := some 502 }, 1)
          else
            let next := retryLoop cfg oracle idempotent maxAttempts (attempt + 1) fuel
            (next.1, next.2 + 1)

/-- Model of `fetchWithRetry`: run the attempt loop starting at attempt 1
with `maxAttempts = max(1, maxRetries + 1)` iterations available. -/
def fetchWithRetry (cfg : AppConfig) (oracle : Nat → FetchOutcome)
    (idempotent : Bool) : Except ToolError UpstreamResponse × Nat :=
  let maxAttempts := max 1 (cfg.maxRetries + 1)
  retryLoop cfg oracle idempotent maxAttempts 1 maxAttempts

/-- Model of `getReadCacheKey`: a key exists only when the TTL is positive
and the operation is a non-mutating GET/HEAD; it is the user id, operation
id and rendered URL joined by `":"`. -/
def getReadCacheKey (cfg : AppConfig) (operation : HerokuOperation)
    (envelope : RequestEnvelope) (userId : String) : Option String :=
  if cfg.readCacheTtlMs ≤ 0 then none
  else if operation.isMutating
      || !([("GET" : String), "HEAD"].contains operation.method) then none
  else some (userId ++ ":" ++ envelope.operation_id ++ ":" ++ envelope.url)

/-- Model of `getReadCacheEntry`: a hit returns a copy of the snapshot with
`served_from_read_cache` appended to its warnings; an expired entry is
deleted and treated as a miss.  The second component is the cache after
the access. -/
def getReadCacheEntry (cache : ReadCache) (now : Int) (key : String) :
    Option ExecuteResponse × ReadCache :=
  match mapGet? cache key with
  | none => (none, cache)
  | some entry =>
      if entry.expiresAt ≤ now then
        (none, cache.filter (fun kv => kv.1 ≠ key))
      else
        let copy := entry.response
        (some { copy with
                 warnings := some ((copy.warnings.getD []) ++ ["served_from_read_cache"]) },
         cache)

/-- Model of `pruneReadCache`: drop expired entries, then, if more than
1000 remain, evict the earliest-expiring entries down to 1000. -/
def pruneReadCache (cache : ReadCache) (now : Int) : ReadCache :=
  let kept := cache.filter (fun kv => !decide (kv.2.expiresAt ≤ now))
  if kept.length ≤ 1000 then kept
  else
    let sorted := List.insertionSort
      (fun a b => a.2.expiresAt ≤ b.2.expiresAt) kept
    let overflow := kept.length - 1000
    let staleKeys := (sorted.take overflow).map Prod.fst
    kept.filter (fun kv => !staleKeys.contains kv.1)

/-- Model of `setReadCacheEntry`: prune, then store a snapshot expiring at
`now + readCacheTtlMs`. -/
def setReadCacheEntry (cfg : AppConfig) (cache : ReadCache) (now : Int)
    (key : String) (response : ExecuteResponse) : ReadCache :=
  mapSet (pruneReadCache cache now) key
    { expiresAt := now + cfg.readCacheTtlMs, response := response }

/-- Model of the response-body parsing step of `execute`: a 204 yields
`null`; a `content-type` containing `application/json` is parsed with
fallback to the raw text; otherwise the raw text, with empty text mapped
to `null`. -/
def parseResponseBody (ext : ExternalFns) (response : UpstreamResponse) : Json :=
  if response.status = 204 then .null
  else
    let contentType := (headersGet response.headers ("content-type")).getD ("")
    if containsSubstring contentType ("application/json") then
      match ext.jsonParse response.bodyText with
      | some parsed => parsed
      | none => .str response.bodyText
    else if 0 < response.bodyText.length then .str response.bodyText
    else .null

/-- Full result of one modelled `execute` call: the thrown-or-returned
outcome, how many upstream `fetch` invocations happened, and the read
cache afterwards. -/
structure ExecOutcome where
  result : Except ToolError ExecuteResponse
  fetchCount : Nat
  cache : ReadCache

/-- Model of `HerokuExecutor.execute`.  The executor's injected
collaborators are passed explicitly: `getOperation` (catalog lookup),
`rootSchema` (`getRootSchema()`), `accessToken` (the value
`getAccessToken(userId)` resolves to), and `oracle` giving the outcome of
each upstream fetch attempt.  `now` is the clock reading used for cache
accesses. -/
def execute (cfg : AppConfig) (ext : ExternalFns)
    (getOperation : String → Option HerokuOperation)
    (rootSchema : Option Json) (accessToken : Option String)
    (oracle : Nat → FetchOutcome) (now : Int) (cache : ReadCache)
    (input : ExecuteRequest) (userId : String) : ExecOutcome :=
  match getOperation input.operation_id with
  | none =>
      { result := .error { message := "Unknown operation_id: " ++ input.operation_id,
                           code := "OPERATION_NOT_FOUND", status := some 404 },
        fetchCount := 0, cache := cache }
  | some operation =>
      let pathParams := input.path_params.getD []
      let queryParams := input.query_params.getD []
      match validatePathParams operation pathParams with
      | .error e => { result := .error e, fetchCount := 0, cache := cache }
      | .ok _ =>
      match validateQueryParams queryParams with
      | .error e => { result := .error e, fetchCount := 0, cache := cache }
      | .ok _ =>
      match validateBody ext rootSchema operation input.body with
      | .error e => { result := .error e, fetchCount := 0, cache := cache }
      | .ok _ =>
      let path := renderPath operation pathParams
      let url := ext.buildUrl cfg.herokuApiBaseUrl path
        (queryParams.map (fun kv => (kv.1, jsStringOfPrim kv.2)))
      let requestEnvelope : RequestEnvelope :=
        { method := operation.method, url := url,
          operation_id := operation.operationId }
      let isDryRun := input.dry_run.getD false
      if isDryRun then
        let token := createWriteConfirmationToken ext.hmacB64url
          { secret := cfg.writeConfirmationSecret, userId := userId,
            operationId := operation.operationId, pathParams := pathParams,
            queryParams := queryParams, body := input.body.getD .null }
        let dryRunBody : Json :=
          if operation.isMutating then
            .obj [("dry_run", .bool true), ("confirm_write_token", .str token)]
          else .obj [("dry_run", .bool true)]
        let warnings : List String :=
          if operation.isMutating && !cfg.allowWrites then
            ["Writes are disabled by ALLOW_WRITES=false"]
          else []
        { result := .ok { request := requestEnvelope, status := 0, headers := [],
                          body := dryRunBody, request_id := none,
                          warnings := some warnings },
          fetchCount := 0, cache := cache }
      else
      if operation.isMutating && !cfg.allowWrites then
        { result := .error { message := "Write operation blocked: ALLOW_WRITES=false",
                             code := "WRITES_DISABLED", status := some 403 },
          fetchCount := 0, cache := cache }
      else
      let expected := createWriteConfirmationToken ext.hmacB64url
        { secret := cfg.writeConfirmationSecret, userId := userId,
          operationId := operation.operationId, pathParams := pathParams,
          queryParams := queryParams, body := input.body.getD .null }
      if operation.isMutating && input.confirm_write_token ≠ some expected then
        { result := .error
            { message := "Invalid or missing confirm_write_token. Run with dry_run=true first.",
              code := "WRITE_CONFIRMATION_REQUIRED", status := some 403 },
          fetchCount := 0, cache := cache }
      else
      match accessToken with
      | none =>
          { result := .error
              { message := "No Heroku OAuth token found for user. Complete /oauth/start first.",
                code := "AUTH_REQUIRED", status := some 401 },
            fetchCount := 0, cache := cache }
      | some _ =>
      let readCacheKey := getReadCacheKey cfg operation requestEnvelope userId
      let lookup :=
        match readCacheKey with
        | some key => getReadCacheEntry cache now key
        | none => (none, cache)
      match lookup.1 with
      | some cachedResponse =>
          { result := .ok cachedResponse, fetchCount := 0, cache := lookup.2 }
      | none =>
      let cache1 := lookup.2
      let idempotent := [("GET" : String), "HEAD"].contains operation.method
      let fetched := fetchWithRetry cfg oracle idempotent
      match fetched.1 with
      | .error e =>
          { result := .error e, fetchCount := fetched.2, cache := cache1 }
      | .ok response =>
          let parsedBody := parseResponseBody ext response
          let cleanHeaders :=
            response.headers.filter (fun kv => !sensitiveHeaderTest kv.1)
          let requestId := headersGet response.headers ("request-id")
          let redactedBody := redactBody parsedBody
          let truncated := truncateBodyForOutput cfg redactedBody
          if !response.ok then
            { result := .error
                { message := "Heroku API request failed: HTTP "
                    ++ toString response.status ++ buildErrorSuffix cfg redactedBody,
                  code := "HEROKU_API_ERROR", status := some response.status },
              fetchCount := fetched.2, cache := cache1 }
          else
            let result : ExecuteResponse :=
              { request := requestEnvelope, status := response.status,
                headers := cleanHeaders, body := truncated.body,
                request_id := requestId,
                warnings :=
                  if 0 < truncated.warnings.length then some truncated.warnings
                  else none }
            let cache2 :=
              match readCacheKey with
              | some key => setReadCacheEntry cfg cache1 now key result
              | none => cache1
            { result := .ok result, fetchCount := fetched.2, cache := cache2 }

/-- Truth of the JS test `/^\d/.test(s)`: the first character is an ASCII digit. -/
def startsWithDigit (s : String) : Bool :=
  match s.toList with
  | [] => false
  | c :: _ => decide (48 ≤ c.val) && decide (c.val ≤ 57)

/-- Membership of a character in the class `[a-z0-9]`. -/
def isLowerAlnum (c : Char) : Bool :=
  (decide (97 ≤ c.val) && decide (c.val ≤ 122))
    || (decide (48 ≤ c.val) && decide (c.val ≤ 57))

/-- Squeeze of runs of underscores after character-wise replacement; the
flag says whether the previous emitted character was an underscore of the
same run. -/
def squeezeUnderscoreRuns : Bool → List Char → List Char
  | _, [] => []
  | prevU, c :: rest =>
      if c.val = 95 then
        if prevU then squeezeUnderscoreRuns true rest
        else c :: squeezeUnderscoreRuns true rest
      else c :: squeezeUnderscoreRuns false rest

/-- Replacement of every run of characters outside `[a-z0-9]` by one
underscore, modelling `replace(/[^a-z0-9]+/g, "_")` on a lowercased
string. -/
def collapseNonAlnumRuns (cs : List Char) : List Char :=
  squeezeUnderscoreRuns false
    (cs.map (fun c => if isLowerAlnum c then c else Char.ofNat 95))

/-- Drop of leading and trailing underscores, modelling
`replace(/^_+|_+$/g, "")`. -/
def stripEdgeUnderscores (cs : List Char) : List Char :=
  ((cs.dropWhile (fun c => c.val = 95)).reverse.dropWhile
    (fun c => c.val = 95)).reverse

/-- Model of `sanitizeParamName` (normalizer module): lowercase, collapse
non-alphanumeric runs to `_`, strip edge underscores, fall back to
`param_<i>` when empty, and prepend `p_` when the result starts with a
digit. -/
def sanitizeParamName (value : String) (fallbackIndex : Nat) : String :=
  let collapsed :=
    String.mk (stripEdgeUnderscores (collapseNonAlnumRuns
      (value.toList.map Char.toLower)))
  let sanitized :=
    if collapsed = "" then "param_" ++ toString fallbackIndex else collapsed
  if startsWithDigit sanitized then "p_" ++ sanitized else sanitized

/-- Names immediately following a `definitions` segment of a JSON-pointer
path, as collected by the indexed loop of `refToParamName` (the window
advances one segment at a time, so consecutive `definitions` segments
overlap exactly as in the source). -/
def collectDefinitionNames : List String → List String
  | a :: b :: rest =>
      if a = "definitions" then b :: collectDefinitionNames (b :: rest)
      else collectDefinitionNames (b :: rest)
  | _ => []

/-- Model of `refToParamName`: strip one leading `#/`, split on `/`
dropping empty segments, then derive the parameter name from the
collected definition names (first+last when two or more, the single one
when exactly one, the last path segment otherwise). -/
def refToParamName (ref : String) (fallbackIndex : Nat) : String :=
  let stripped := if strStartsWith ref ("#/") then strDrop ref 2 else ref
  let parts := ((splitOnChar (Char.ofNat 47) stripped.toList).map String.mk).filter (fun part => part ≠ "")
  let definitionNames := collectDefinitionNames parts
  match definitionNames with
  | first :: _ :: _ =>
      sanitizeParamName (first ++ "_" ++ (definitionNames.getLast?.getD (""))) fallbackIndex
  | [only] => sanitizeParamName only fallbackIndex
  | [] =>
      sanitizeParamName
        ((parts.getLast?).getD ("param_" ++ toString fallbackIndex)) fallbackIndex

/-- Value of a hexadecimal digit character, if any. -/
def hexVal? (c : Char) : Option Nat :=
  if 48 ≤ c.val ∧ c.val ≤ 57 then some (c.toNat - 48)
  else if 65 ≤ c.val ∧ c.val ≤ 70 then some (c.toNat - 55)
  else if 97 ≤ c.val ∧ c.val ≤ 102 then some (c.toNat - 87)
  else none

/-- Percent-decoding of `%XX` escapes, modelling `decodeURIComponent` on
the ASCII-only escape sequences occurring in the schema's encoded
JSON-pointer hrefs (such as `%23` and `%2F`). -/
def decodePercentEscapes : List Char → List Char
  | [] => []
  | c :: h1 :: h2 :: tail =>
      if c.val = 37 then
        match hexVal? h1, hexVal? h2 with
        | some v1, some v2 => Char.ofNat (16 * v1 + v2) :: decodePercentEscapes tail
        | _, _ => c :: decodePercentEscapes (h1 :: h2 :: tail)
      else c :: decodePercentEscapes (h1 :: h2 :: tail)
  | c :: rest => c :: decodePercentEscapes rest

/-- Accumulating state of `normalizeHrefToPath`: recorded parameters, the
`usedNames` set, and the running placeholder index. -/
structure NormState where
  params : List PathParameter
  used : List String
  idx : Nat

/-- Collision loop of the encoded-reference pass: while the candidate name
is taken, append `_<placeholderIndex>`.  The fuel `|used| + 1` always
suffices because each pass through the loop lengthens the name, so at
most `|used|` distinct taken names can be hit. -/
def freshenName (used : List String) (idx : Nat) : Nat → String → String
  | 0, name => name
  | fuel + 1, name =>
      if used.contains name then
        freshenName used idx fuel (name ++ "_" ++ toString idx)
      else name

/-- Split at the first closing brace: contents strictly before it and the
remainder strictly after it. -/
def splitAtFirstCloseBrace : List Char → Option (List Char × List Char)
  | [] => none
  | c :: rest =>
      if c.val = 125 then some ([], rest)
      else (splitAtFirstCloseBrace rest).map (fun pr => (c :: pr.1, pr.2))

/-- Split at the first brace of either kind: contents before it, the brace
itself, and the remainder after it. -/
def splitAtFirstAnyBrace : List Char → Option (List Char × Char × List Char)
  | [] => none
  | c :: rest =>
      if c.val = 123 ∨ c.val = 125 then some ([], c, rest)
      else (splitAtFirstAnyBrace rest).map (fun pr => (c :: pr.1, pr.2.1, pr.2.2))

/-- First pass of `normalizeHrefToPath`: the global replace of
`/\{\(([^}]+)\)\}/`.  A match starts with `{(` and runs to the first `}`,
which must be directly preceded by `)` with a non-empty capture between;
the capture is URI-decoded, named via `refToParamName`, de-collided with
the while loop, recorded, and replaced by `{name}`.  Fuel decreases with
every character consumed, so the subject's length suffices. -/
def scanEncodedRefs : Nat → List Char → NormState → List Char × NormState
  | 0, s, st => (s, st)
  | _ + 1, [], st => ([], st)
  | fuel + 1, c :: rest, st =>
      let noMatch := fun (_ : Unit) =>
        let next := scanEncodedRefs fuel rest st
        (c :: next.1, next.2)
      if c.val = 123 then
        match rest with
        | c2 :: tail =>
            if c2.val = 40 then
              match splitAtFirstCloseBrace tail with
              | some (pre, post) =>
                  if pre.getLast? = some (Char.ofNat 41) ∧ 2 ≤ pre.length then
                    let encodedRef := pre.dropLast
                    let decoded := String.mk (decodePercentEscapes encodedRef)
                    let base := refToParamName decoded st.idx
                    let name := freshenName st.used st.idx (st.used.length + 1) base
                    let st' : NormState :=
                      { params := st.params ++ [{ name := name, sourceRef := some decoded }],
                        used := st.used ++ [name],
                        idx := st.idx + 1 }
                    let next := scanEncodedRefs fuel post st'
                    ((Char.ofNat 123 :: name.toList ++ [Char.ofNat 125]) ++ next.1, next.2)
                  else noMatch ()
              | none => noMatch ()
            else noMatch ()
        | [] => noMatch ()
      else noMatch ()

/-- Second pass of `normalizeHrefToPath`: the global replace of
`/\{([^{}]+)\}/`.  Matches whose text starts with `{(` and ends with `)}`
are returned unchanged (the guard of the source); otherwise the capture
is sanitized, recorded only when the name is not yet used, the
placeholder index advances, and the match is replaced by `{name}`. -/
def scanPlainPlaceholders : Nat → List Char → NormState → List Char × NormState
  | 0, s, st => (s, st)
  | _ + 1, [], st => ([], st)
  | fuel + 1, c :: rest, st =>
      let noMatch := fun (_ : Unit) =>
        let next := scanPlainPlaceholders fuel rest st
        (c :: next.1, next.2)
      if c.val = 123 then
        match splitAtFirstAnyBrace rest with
        | some (pre, brace, post) =>
            if brace.val = 125 ∧ pre ≠ [] then
              if pre.head? = some (Char.ofNat 40) ∧ pre.getLast? = some (Char.ofNat 41) then
                let next := scanPlainPlaceholders fuel post st
                ((Char.ofNat 123 :: pre ++ [Char.ofNat 125]) ++ next.1, next.2)
              else
                let name := sanitizeParamName (String.mk pre) st.idx
                let st' : NormState :=
                  if st.used.contains name then { st with idx := st.idx + 1 }
                  else
                    { params := st.params ++ [{ name := name, sourceRef := none }],
                      used := st.used ++ [name],
                      idx := st.idx + 1 }
                let next := scanPlainPlaceholders fuel post st'
                ((Char.ofNat 123 :: name.toList ++ [Char.ofNat 125]) ++ next.1, next.2)
            else noMatch ()
        | none => noMatch ()
      else noMatch ()

/-- Result of `normalizeHrefToPath`. -/
structure HrefNormalization where
  pathTemplate : String
  pathParams : List PathParameter
deriving Repr, DecidableEq

/-- Model of `normalizeHrefToPath` (normalizer module).  `urlPathname`
models `new URL(rawHref).pathname`, applied when the href is absolute. -/
def normalizeHrefToPath (urlPathname : String → String)
    (rawHref : String) : HrefNormalization :=
  let href := if strStartsWith rawHref ("http") then urlPathname rawHref else rawHref
  let start : NormState := { params := [], used := [], idx := 0 }
  let pass1 := scanEncodedRefs href.toList.length href.toList start
  let pass2 := scanPlainPlaceholders pass1.1.length pass1.1 pass1.2
  { pathTemplate := String.mk pass2.1, pathParams := pass2.2.params }

/-- Field access `value[key]` on a modelled JS value, `undefined` when the
value is not an object. -/
def objField? (j : Json) (k : String) : Option Json :=
  match j with
  | .obj fields => mapGet? fields k
  | _ => none

/-- Model of `coerceMethod`: non-strings (including `undefined`) default
to GET, strings are uppercased. -/
def coerceMethod (value : Option Json) : String :=
  match value with
  | some (.str s) => asciiUpper s
  | _ => "GET"

/-- Model of `asObject`: plain objects pass through, everything else
(including arrays and `null`) becomes `undefined`. -/
def asObject (value : Option Json) : Option Json :=
  match value with
  | some (.obj fields) => some (.obj fields)
  | _ => none

/-- String value of a field when `typeof` is `"string"`, else `none`. -/
def strField? (j : Json) (k : String) : Option String :=
  match objField? j k with
  | some (.str s) => some s
  | _ => none

/-- Model of `operationSummary`: trim `title`, `description` and `rel`,
drop the empty ones, and join with `" - "`. -/
def operationSummary (link : Json) : String :=
  String.intercalate (" - ")
    (([(strField? link ("title")).getD (""),
       (strField? link ("description")).getD (""),
       (strField? link ("rel")).getD ("")].map strTrim).filter
      (fun part => part ≠ ""))

/-- First-seen-order deduplication, modelling `Array.from(new Set(xs))`. -/
def dedupFirstSeen (seen : List String) : List String → List String
  | [] => []
  | x :: rest =>
      if seen.contains x then dedupFirstSeen seen rest
      else x :: dedupFirstSeen (x :: seen) rest

/-- Normalized catalog (`NormalizedCatalog` in `src/types.ts`). -/
structure NormalizedCatalog where
  operations : List HerokuOperation
  rootSchema : Json

/-- Merge rule applied when a raw link collapses onto an existing
`(method, path_template)` entry: descriptions are concatenated
(space-joined, trimmed, keeping the old one when the join is empty),
required params are unioned preserving first-seen order, and the search
text is appended. -/
def mergeOperations (existing : HerokuOperation) (summary : String)
    (requiredParams : List String) (searchText : String) : HerokuOperation :=
  let mergedSummary := strTrim (String.intercalate (" ")
    (([existing.description.getD (""), summary]).filter
      (fun part => part ≠ "")))
  { existing with
    description :=
      if mergedSummary ≠ "" then some mergedSummary
      else existing.description,
    requiredParams :=
      dedupFirstSeen [] (existing.requiredParams ++ requiredParams),
    searchText := existing.searchText ++ " " ++ searchText }

/-- Processing of one raw link of one definition: skip links without a
string `href`; build the operation key, parameters and search text; then
either merge into the already-present operation for the same key
(concatenating descriptions, unioning required params in first-seen
order, appending search text) or append a new catalog entry. -/
def processLink (urlPathname : String → String)
    (deduped : List (String × HerokuOperation))
    (definitionName : String) (linkRaw : Json) :
    List (String × HerokuOperation) :=
  match objField? linkRaw ("href") with
  | some (.str href) =>
      let method := coerceMethod (objField? linkRaw ("method"))
      let normalized := normalizeHrefToPath urlPathname href
      let key := method ++ " " ++ normalized.pathTemplate
      let bodySchema := asObject (objField? linkRaw ("schema"))
      let bodyRequired :=
        match bodySchema with
        | some schema =>
            match objField? schema ("required") with
            | some (.arr items) =>
                items.filterMap (fun item =>
                  match item with
                  | .str s => some ("body." ++ s)
                  | _ => none)
            | _ => []
        | none => []
      let requiredParams :=
        normalized.pathParams.map PathParameter.name ++ bodyRequired
      let isMutating := !([("GET" : String), "HEAD"].contains method)
      let summary := operationSummary linkRaw
      let searchText := asciiLower (String.intercalate (" ")
        ([definitionName, method, normalized.pathTemplate,
          (strField? linkRaw ("rel")).getD (""),
          (strField? linkRaw ("title")).getD (""),
          (strField? linkRaw ("description")).getD ("")]
          ++ requiredParams))
      match mapGet? deduped key with
      | some existing =>
          mapSet deduped key
            (mergeOperations existing summary requiredParams searchText)
      | none =>
          let operation : HerokuOperation :=
            { operationId := key, method := method,
              pathTemplate := normalized.pathTemplate, rawHref := href,
              rel := strField? linkRaw ("rel"),
              title := strField? linkRaw ("title"),
              description := if summary ≠ "" then some summary else none,
              definitionName := definitionName,
              requestSchema := bodySchema,
              targetSchemaRef :=
                match asObject (objField? linkRaw ("targetSchema")) with
                | some ts =>
                    match objField? ts ("$ref") with
                    | some (.str s) => some s
                    | _ => none
                | none => none,
              pathParams := normalized.pathParams,
              requiredParams := requiredParams,
              isMutating := isMutating, searchText := searchText }
          mapSet deduped key operation
  | _ => deduped

/-- Fold of `processLink` over the links array of one definition. -/
def processLinks (urlPathname : String → String)
    (definitionName : String) :
    List (String × HerokuOperation) → List Json →
    List (String × HerokuOperation)
  | deduped, [] => deduped
  | deduped, link :: rest =>
      processLinks urlPathname definitionName
        (processLink urlPathname deduped definitionName link) rest

/-- Fold over the `definitions` entries, skipping definitions without a
`links` array. -/
def processDefinitions (urlPathname : String → String) :
    List (String × HerokuOperation) → List (String × Json) →
    List (String × HerokuOperation)
  | deduped, [] => deduped
  | deduped, (definitionName, definition) :: rest =>
      let deduped' :=
        match objField? definition ("links") with
        | some (.arr links) => processLinks urlPathname definitionName deduped links
        | _ => deduped
      processDefinitions urlPathname deduped' rest

/-- Model of `normalizeHerokuSchema`: walk every definition's links into
the dedup map and return its values in insertion order, together with the
root schema kept verbatim. -/
def normalizeHerokuSchema (urlPathname : String → String)
    (rootSchema : Json) : NormalizedCatalog :=
  let definitions :=
    match objField? rootSchema ("definitions") with
    | some (.obj fields) => fields
    | _ => []
  let deduped := processDefinitions urlPathname [] definitions
  { operations := deduped.map Prod.snd, rootSchema := rootSchema }

/-- OAuth token record (`OAuthTokenRecord` in `src/types.ts`). -/
structure OAuthTokenRecord where
  accessToken : String
  tokenType : String
  refreshToken : Option String := none
  scope : List String
  expiresAt : Option String := none
  obtainedAt : String
deriving Repr, DecidableEq

/-- Encrypted envelope persisted by the token store. -/
structure EncryptedPayload where
  iv : String
  tag : String
  ciphertext : String
deriving Repr, DecidableEq

/-- External primitives behind `src/utils/crypto.ts` and the JSON codec of
the token store: the base64 decoded length of the configured key
(`Buffer.from(key, "base64").length`), AES-256-GCM encryption and
decryption (decryption may fail on tampering), and `JSON.stringify` /
`JSON.parse` on token records. -/
structure CryptoFns where
  b64DecodedLen : String → Nat
  aesGcmEncrypt : String → String → EncryptedPayload
  aesGcmDecrypt : String → EncryptedPayload → Except String String
  stringifyRecord : OAuthTokenRecord → String
  parseRecord : String → Except String OAuthTokenRecord

/-- Model of `encryptString`: reject keys that do not decode to exactly 32
bytes, otherwise produce the AEAD envelope. -/
def encryptString (c : CryptoFns) (value keyBase64 : String) :
    Except String EncryptedPayload :=
  if c.b64DecodedLen keyBase64 = 32 then .ok (c.aesGcmEncrypt keyBase64 value)
  else .error ("TOKEN_ENCRYPTION_KEY_BASE64 must decode to 32 bytes for AES-256-GCM")

/-- Model of `decryptString`: same key check, then AEAD decryption. -/
def decryptString (c : CryptoFns) (payload : EncryptedPayload)
    (keyBase64 : String) : Except String String :=
  if c.b64DecodedLen keyBase64 = 32 then c.aesGcmDecrypt keyBase64 payload
  else .error ("TOKEN_ENCRYPTION_KEY_BASE64 must decode to 32 bytes for AES-256-GCM")

/-- In-memory state of `EncryptedTokenStore` (its loaded `cache` object). -/
abbrev TokenStore := List (String × EncryptedPayload)

/-- Model of `EncryptedTokenStore.set`: encrypt the JSON rendering of the
record and store it under the user id. -/
def tokenStoreSet (c : CryptoFns) (keyBase64 : String) (store : TokenStore)
    (userId : String) (token : OAuthTokenRecord) : Except String TokenStore :=
  (encryptString c (c.stringifyRecord token) keyBase64).map
    (fun envelope => mapSet store userId envelope)

/-- Model of `EncryptedTokenStore.get`: absent users yield `null`; a
decrypt or parse failure is wrapped into the fatal per-user error. -/
def tokenStoreGet (c : CryptoFns) (keyBase64 : String) (store : TokenStore)
    (userId : String) : Except String (Option OAuthTokenRecord) :=
  match mapGet? store userId with
  | none => .ok none
  | some encrypted =>
      match decryptString c encrypted keyBase64 with
      | .ok plaintext =>
          match c.parseRecord plaintext with
          | .ok record => .ok (some record)
          | .error e =>
              .error ("Failed to decrypt token record for user " ++ userId ++ ": " ++ e)
      | .error e =>
          .error ("Failed to decrypt token record for user " ++ userId ++ ": " ++ e)

/-- Status of a non-throwing execute outcome. -/
def resultStatus? (r : Except ToolError ExecuteResponse) : Option Nat :=
  match r with
  | .ok x => some x.status
  | .error _ => none

/-- Error code and status of a throwing execute outcome. -/
def errorCode? (r : Except ToolError ExecuteResponse) : Option (String × Option Nat) :=
  match r with
  | .error e => some (e.code, e.status)
  | .ok _ => none

/-- Warnings of a non-throwing execute outcome (empty when absent). -/
def resultWarnings (r : Except ToolError ExecuteResponse) : List String :=
  match r with
  | .ok x => x.warnings.getD []
  | .error _ => []

/-- Headers of a non-throwing execute outcome. -/
def resultHeaders (r : Except ToolError ExecuteResponse) : List (String × String) :=
  match r with
  | .ok x => x.headers
  | .error _ => []

/-- Body of a non-throwing execute outcome (`null` on errors). -/
def resultBody (r : Except ToolError ExecuteResponse) : Json :=
  match r with
  | .ok x => x.body
  | .error _ => .null

/-- Unfolding of `mapGet?` on the empty map. -/
theorem mapGet?_nil {α : Type} (k : String) :
    mapGet? ([] : List (String × α)) k = none := rfl

/-- Unfolding of `mapGet?` on a non-empty map. -/
theorem mapGet?_cons {α : Type} (k' : String) (v' : α)
    (rest : List (String × α)) (k : String) :
    mapGet? ((k', v') :: rest) k =
      if k' = k then some v' else mapGet? rest k := by
  by_cases h : k' = k <;> simp [mapGet?, List.find?, h]

/-- Lookup after an insertion in the association-list map: the inserted
key reads back the new value, every other key is untouched. -/
theorem mapGet?_mapSet {α : Type} (m : List (String × α)) (k1 k2 : String) (v : α) :
    mapGet? (mapSet m k1 v) k2 = if k2 = k1 then some v else mapGet? m k2 := by
  induction m with
  | nil =>
      by_cases h : k2 = k1
      · subst h
        simp [mapSet, mapGet?_cons, mapGet?_nil]
      · have h' : ¬k1 = k2 := fun he => h he.symm
        simp [mapSet, mapGet?_cons, mapGet?_nil, h, h']
  | cons kv rest ih =>
      obtain ⟨k', v'⟩ := kv
      by_cases h1 : k' = k1
      · subst h1
        have hset : mapSet ((k', v') :: rest) k' v = (k', v) :: rest := by
          simp [mapSet]
        rw [hset, mapGet?_cons, mapGet?_cons]
        by_cases h2 : k' = k2
        · subst h2
          simp
        · have h2' : ¬k2 = k' := fun he => h2 he.symm
          simp [h2, h2']
      · have hset : mapSet ((k', v') :: rest) k1 v = (k', v') :: mapSet rest k1 v := by
          simp [mapSet, h1]
        rw [hset, mapGet?_cons, mapGet?_cons, ih]
        by_cases h2 : k' = k2
        · subst h2
          simp [h1]
        · simp [h2]

/-- Right cancellation of string concatenation. -/
theorem strAppend_right_cancel {a b s : String} (h : a ++ s = b ++ s) : a = b := by
  cases a with | mk da =>
  cases b with | mk db =>
  cases s with | mk ds =>
  have h2 : da.append ds = db.append ds := congrArg String.data h
  have h3 : da = db := List.append_cancel_right h2
  rw [h3]

/-- Distinct user ids give distinct read-cache keys for the same
operation id and rendered URL. -/
theorem cacheKey_injective_in_user (u1 u2 a b : String) (h : u1 ≠ u2) :
    u1 ++ ":" ++ a ++ ":" ++ b ≠ u2 ++ ":" ++ a ++ ":" ++ b := by
  intro he
  apply h
  have h1 : u1 ++ (":" ++ a ++ ":" ++ b) = u2 ++ (":" ++ a ++ ":" ++ b) := by
    cases u1 with | mk d1 =>
    cases u2 with | mk d2 =>
    cases a with | mk da =>
    cases b with | mk db =>
    have hd := congrArg String.data he
    simp only [HAppend.hAppend, Append.append, String.append] at hd ⊢
    apply congrArg String.mk
    simpa [List.append_assoc] using hd
  exact strAppend_right_cancel h1

/-- C2: for distinct user ids `u1 ≠ u2` and a fixed operation id and
rendered URL, a read-cache entry stored under `u1`'s key is never
returned to a lookup under `u2`'s key: the cache key is the string
`userId:operation_id:url`, the two users' keys differ, and a cache
access for `u2` is unaffected by the insertion made for `u1`. -/
theorem readCache_scoped_per_user
    (cfg : AppConfig) (operation : HerokuOperation) (envelope : RequestEnvelope)
    (u1 u2 : String) (huser : u1 ≠ u2) (cache : ReadCache)
    (entry : CachedReadEntry) (now : Int) (k1 k2 : String)
    (h1 : getReadCacheKey cfg operation envelope u1 = some k1)
    (h2 : getReadCacheKey cfg operation envelope u2 = some k2) :
    k1 = u1 ++ ":" ++ envelope.operation_id ++ ":" ++ envelope.url ∧
    k1 ≠ k2 ∧
    (getReadCacheEntry (mapSet cache k1 entry) now k2).1 =
      (getReadCacheEntry cache now k2).1 := by
  unfold getReadCacheKey at h1 h2
  by_cases httl : cfg.readCacheTtlMs ≤ 0
  · rw [if_pos httl] at h1
    exact absurd h1 (by simp)
  · rw [if_neg httl] at h1 h2
    by_cases hmut :
        (operation.isMutating
          || !([("GET" : String), "HEAD"].contains operation.method)) = true
    · rw [if_pos hmut] at h1
      exact absurd h1 (by simp)
    · rw [if_neg hmut] at h1 h2
      have hk1 : k1 = u1 ++ ":" ++ envelope.operation_id ++ ":" ++ envelope.url :=
        (Option.some.inj h1).symm
      have hk2 : k2 = u2 ++ ":" ++ envelope.operation_id ++ ":" ++ envelope.url :=
        (Option.some.inj h2).symm
      have hne : k1 ≠ k2 := by
        rw [hk1, hk2]
        exact cacheKey_injective_in_user u1 u2 envelope.operation_id envelope.url huser
      refine ⟨hk1, hne, ?_⟩
      have hm : mapGet? (mapSet cache k1 entry) k2 = mapGet? cache k2 := by
        rw [mapGet?_mapSet, if_neg (fun he => hne he.symm)]
      unfold getReadCacheEntry
      rw [hm]
      cases hfind : mapGet? cache k2 with
      | none => simp
      | some e => by_cases hexp : e.expiresAt ≤ now <;> simp [hexp]

/-- Fixture configuration for the cache-scoping witness. -/
def cfgCacheW : AppConfig :=
  { herokuApiBaseUrl := "https://api.heroku.com",
    herokuAcceptHeader := "application/vnd.heroku+json; version=3",
    allowWrites := false, requestTimeoutMs := 15000, maxRetries := 2,
    readCacheTtlMs := 5000, executeMaxBodyBytes := 48000,
    executeBodyPreviewChars := 6000, writeConfirmationSecret := "local-dev-secret" }

/-- Fixture operation for the cache-scoping witness. -/
def opCacheW : HerokuOperation :=
  { operationId := "GET /apps", method := "GET", pathTemplate := "/apps",
    rawHref := "/apps", isMutating := false }

/-- Fixture envelope for the cache-scoping witness. -/
def envCacheW : RequestEnvelope :=
  { method := "GET", url := "https://api.heroku.com/apps",
    operation_id := "GET /apps" }

/-- Fixture cached entry for the cache-scoping witness. -/
def entryCacheW : CachedReadEntry :=
  { expiresAt := 5000,
    response := { request := envCacheW, status := 200, headers := [],
                  body := .null } }

/-- Concrete instance of the cache-scoping theorem at users `alice` and
`bob` on an empty cache. -/
theorem readCache_scoped_per_user_witness :
    ("alice" : String) ≠ "bob" ∧
    getReadCacheKey cfgCacheW opCacheW envCacheW ("alice")
      = some ("alice:GET /apps:https://api.heroku.com/apps") ∧
    ("alice:GET /apps:https://api.heroku.com/apps" : String)
      ≠ "bob:GET /apps:https://api.heroku.com/apps" ∧
    (getReadCacheEntry
        (mapSet [] ("alice:GET /apps:https://api.heroku.com/apps") entryCacheW) 0
        ("bob:GET /apps:https://api.heroku.com/apps")).1 =
      (getReadCacheEntry [] 0 ("bob:GET /apps:https://api.heroku.com/apps")).1 := by
  have h := readCache_scoped_per_user cfgCacheW opCacheW envCacheW
    ("alice") ("bob") (by decide) [] entryCacheW 0
    ("alice:GET /apps:https://api.heroku.com/apps")
    ("bob:GET /apps:https://api.heroku.com/apps") (by decide) (by decide)
  exact ⟨by decide, by decide, h.2.1, h.2.2⟩

/-- Presence test agrees with the lookup: `mapHas` is the `isSome` of
`mapGet?`. -/
theorem mapHas_eq_isSome {α : Type} (m : List (String × α)) (k : String) :
    mapHas m k = (mapGet? m k).isSome := by
  simp [mapHas, mapGet?]

/-- C8: the path-parameter stage rejects exactly the requests in which
some declared path parameter is absent or bound to the empty string, with
`VALIDATION_ERROR` and status 400; query validation, by contrast, rejects
exactly the entries whose value is not of JS type string, number or
boolean, so a query parameter bound to the empty string is accepted. -/
theorem pathParams_reject_empty_query_accepts_empty
    (operation : HerokuOperation) (pathParams : List (String × String))
    (queryParams : List (String × Json)) :
    ((∃ e, validatePathParams operation pathParams = .error e) ↔
      ∃ p ∈ operation.pathParams,
        mapGet? pathParams p.name = none ∨ mapGet? pathParams p.name = some ("")) ∧
    (∀ e, validatePathParams operation pathParams = .error e →
      e.code = "VALIDATION_ERROR" ∧ e.status = some 400) ∧
    ((∃ e, validateQueryParams queryParams = .error e) ↔
      ∃ kv ∈ queryParams,
        ¬([("string" : String), "number", "boolean"].contains (jsTypeof kv.2) = true)) ∧
    (∀ e, validateQueryParams queryParams = .error e →
      e.code = "VALIDATION_ERROR" ∧ e.status = some 400) ∧
    ((∀ kv ∈ queryParams,
        [("string" : String), "number", "boolean"].contains (jsTypeof kv.2) = true) →
      validateQueryParams queryParams = .ok ()) := by
  refine ⟨?_, ?_, ?_, ?_, ?_⟩
  · unfold validatePathParams
    cases hfind : operation.pathParams.find?
        (fun param => !mapHas pathParams param.name
          || decide (mapGet? pathParams param.name = some (""))) with
    | none =>
        simp only [hfind]
        constructor
        · rintro ⟨e, he⟩
          exact absurd he (by simp)
        · rintro ⟨p, hp, hcond⟩
          have := List.find?_eq_none.mp hfind p hp
          rw [mapHas_eq_isSome] at this
          rcases hcond with hnone | hempty
          · simp [hnone] at this
          · simp [hempty] at this
    | some p =>
        simp only [hfind]
        constructor
        · rintro ⟨e, _⟩
          have hmem := List.mem_of_find?_eq_some hfind
          have hcond := List.find?_some hfind
          rw [mapHas_eq_isSome] at hcond
          refine ⟨p, hmem, ?_⟩
          cases hval : mapGet? pathParams p.name with
          | none => exact Or.inl rfl
          | some s =>
              rw [hval] at hcond
              simp at hcond
              exact Or.inr (congrArg Option.some hcond)
        · intro _
          exact ⟨_, rfl⟩
  · unfold validatePathParams
    cases hfind : operation.pathParams.find?
        (fun param => !mapHas pathParams param.name
          || decide (mapGet? pathParams param.name = some (""))) with
    | none => intro e he; exact absurd he (by simp)
    | some p =>
        intro e he
        simp only [hfind, Except.error.injEq] at he
        rw [← he]
        exact ⟨rfl, rfl⟩
  · unfold validateQueryParams
    cases hfind : queryParams.find?
        (fun kv => !([("string" : String), "number", "boolean"].contains (jsTypeof kv.2))) with
    | none =>
        simp only [hfind]
        constructor
        · rintro ⟨e, he⟩
          exact absurd he (by simp)
        · rintro ⟨kv, hkv, hcond⟩
          exfalso
          have hn := List.find?_eq_none.mp hfind kv hkv
          apply hcond
          revert hn
          cases hb : [("string" : String), "number", "boolean"].contains (jsTypeof kv.2) <;>
            simp [hb]
    | some kv =>
        simp only [hfind]
        constructor
        · rintro ⟨e, _⟩
          have hmem := List.mem_of_find?_eq_some hfind
          have hcond := List.find?_some hfind
          have h2 : [("string" : String), "number", "boolean"].contains (jsTypeof kv.2) = false := by
            simpa using hcond
          refine ⟨kv, hmem, ?_⟩
          intro hc
          rw [hc] at h2
          exact Bool.noConfusion h2
        · intro _
          exact ⟨_, rfl⟩
  · unfold validateQueryParams
    cases hfind : queryParams.find?
        (fun kv => !([("string" : String), "number", "boolean"].contains (jsTypeof kv.2))) with
    | none => intro e he; exact absurd he (by simp)
    | some kv =>
        intro e he
        simp only [hfind, Except.error.injEq] at he
        rw [← he]
        exact ⟨rfl, rfl⟩
  · intro hall
    unfold validateQueryParams
    cases hfind : queryParams.find?
        (fun kv => !([("string" : String), "number", "boolean"].contains (jsTypeof kv.2))) with
    | none => rfl
    | some kv =>
        have hmem := List.mem_of_find?_eq_some hfind
        have hcond := List.find?_some hfind
        have h2 : [("string" : String), "number", "boolean"].contains (jsTypeof kv.2) = false := by
          simpa using hcond
        have h3 := hall kv hmem
        rw [h3] at h2
        exact Bool.noConfusion h2

/-- Fixture operation with one declared path parameter. -/
def opPathW : HerokuOperation :=
  { operationId := "GET /apps/{app_identity}", method := "GET",
    pathTemplate := "/apps/{app_identity}", rawHref := "/apps/{app_identity}",
    pathParams := [{ name := "app_identity" }],
    requiredParams := ["app_identity"], isMutating := false }

/-- Concrete instance of the validation asymmetry: a path parameter bound
to the empty string is rejected while a query parameter bound to the
empty string passes. -/
theorem pathParams_reject_empty_query_accepts_empty_witness :
    (∃ e, validatePathParams opPathW [("app_identity", "")] = .error e) ∧
    validateQueryParams [("name", Json.str (""))] = .ok () := by
  have h := pathParams_reject_empty_query_accepts_empty opPathW
    [("app_identity", "")] [("name", Json.str (""))]
  refine ⟨h.1.mpr ⟨{ name := "app_identity" }, by decide, Or.inr (by decide)⟩, ?_⟩
  exact h.2.2.2.2 (by decide)

/-- C9: a serialized redacted body within `executeMaxBodyBytes` UTF-8
bytes passes through verbatim with no warning; a larger one is replaced
by the truncation envelope — `truncated`, `original_size_bytes`, the
first `executeBodyPreviewChars` characters as `preview`, and
`preview_is_partial` true exactly when the preview is shorter than the
serialization — together with a single warning that begins with
`response_body_truncated:`. -/
theorem truncateBody_verbatim_or_envelope (cfg : AppConfig) (value : Json)
    (serialized : String) (hs : safeSerialize value = some serialized) :
    (serialized.utf8ByteSize ≤ cfg.executeMaxBodyBytes →
      truncateBodyForOutput cfg value = { body := value, warnings := [] }) ∧
    (¬serialized.utf8ByteSize ≤ cfg.executeMaxBodyBytes →
      truncateBodyForOutput cfg value =
        { body := Json.obj
            [("truncated", .bool true),
             ("original_size_bytes", .num (Int.ofNat serialized.utf8ByteSize)),
             ("preview", .str (strTake serialized cfg.executeBodyPreviewChars)),
             ("preview_is_partial",
               .bool (decide ((strTake serialized cfg.executeBodyPreviewChars).length
                 < serialized.length)))],
          warnings :=
            ["response_body_truncated:"
              ++ (" " ++ toString serialized.utf8ByteSize
                ++ " bytes exceeded EXECUTE_MAX_BODY_BYTES="
                ++ toString cfg.executeMaxBodyBytes)] }) := by
  unfold truncateBodyForOutput
  rw [hs]
  dsimp only
  constructor
  · intro hle
    rw [if_pos hle]
  · intro hgt
    rw [if_neg hgt]
    have hsplit : ("response_body_truncated: " : String)
        ++ toString serialized.utf8ByteSize
        ++ " bytes exceeded EXECUTE_MAX_BODY_BYTES="
        ++ toString cfg.executeMaxBodyBytes
        = "response_body_truncated:"
          ++ (" " ++ toString serialized.utf8ByteSize
            ++ " bytes exceeded EXECUTE_MAX_BODY_BYTES="
            ++ toString cfg.executeMaxBodyBytes) := by
      have hlit : ("response_body_truncated: " : String)
          = "response_body_truncated:" ++ " " := by decide
      rw [hlit]
      cases ha : toString serialized.utf8ByteSize with | mk d1 =>
      cases hb : toString cfg.executeMaxBodyBytes with | mk d2 =>
      apply congrArg String.mk
      simp [List.append_assoc]
    rw [hsplit]

/-- Concrete instance of the truncation contract: a five-byte body with a
three-byte limit and a two-character preview is replaced by the envelope
with `preview_is_partial = true`; the same body passes a 100-byte limit
verbatim. -/
theorem truncateBody_verbatim_or_envelope_witness :
    safeSerialize (Json.str ("hello")) = some ("hello") ∧
    truncateBodyForOutput
        { herokuApiBaseUrl := "", herokuAcceptHeader := "", allowWrites := false,
          requestTimeoutMs := 0, maxRetries := 0, readCacheTtlMs := 0,
          executeMaxBodyBytes := 3, executeBodyPreviewChars := 2,
          writeConfirmationSecret := "" } (Json.str ("hello")) =
      { body := Json.obj
          [("truncated", .bool true), ("original_size_bytes", .num 5),
           ("preview", .str ("he")), ("preview_is_partial", .bool true)],
        warnings :=
          ["response_body_truncated:"
            ++ (" " ++ toString (5 : Nat)
              ++ " bytes exceeded EXECUTE_MAX_BODY_BYTES=" ++ toString (3 : Nat))] } ∧
    truncateBodyForOutput
        { herokuApiBaseUrl := "", herokuAcceptHeader := "", allowWrites := false,
          requestTimeoutMs := 0, maxRetries := 0, readCacheTtlMs := 0,
          executeMaxBodyBytes := 100, executeBodyPreviewChars := 2,
          writeConfirmationSecret := "" } (Json.str ("hello")) =
      { body := Json.str ("hello"), warnings := [] } := by
  refine ⟨rfl, ?_, ?_⟩
  · exact (truncateBody_verbatim_or_envelope _ (Json.str ("hello")) ("hello") rfl).2
      (by decide)
  · exact (truncateBody_verbatim_or_envelope _ (Json.str ("hello")) ("hello") rfl).1
      (by decide)

/-- Strong induction over modelled JS values, reaching through arrays and
object fields. -/
theorem Json.strongInduction (P : Json → Prop)
    (hnull : P .null) (hbool : ∀ b, P (.bool b)) (hnum : ∀ n, P (.num n))
    (hstr : ∀ s, P (.str s))
    (harr : ∀ items, (∀ x ∈ items, P x) → P (.arr items))
    (hobj : ∀ fields, (∀ kv ∈ fields, P kv.2) → P (.obj fields)) :
    ∀ j, P j
  | .null => hnull
  | .bool b => hbool b
  | .num n => hnum n
  | .str s => hstr s
  | .arr items =>
      harr items (fun x _ =>
        Json.strongInduction P hnull hbool hnum hstr harr hobj x)
  | .obj fields =>
      hobj fields (fun kv _ =>
        Json.strongInduction P hnull hbool hnum hstr harr hobj kv.2)
termination_by j => sizeOf j
decreasing_by
  · have h1 : sizeOf x < sizeOf items := List.sizeOf_lt_of_mem (by assumption)
    simp only [Json.arr.sizeOf_spec]
    omega
  · have h1 : sizeOf kv < sizeOf fields := List.sizeOf_lt_of_mem (by assumption)
    obtain ⟨k, v⟩ := kv
    simp only [Json.obj.sizeOf_spec, Prod.mk.sizeOf_spec] at h1 ⊢
    omega

mutual

/-- Redactedness predicate of the claim: on every nesting level, every
object key matching the sensitive-body pattern is bound to exactly the
string `"[REDACTED]"` (values under other keys are checked recursively,
through arrays as well). -/
def bodyRedacted : Json → Bool
  | .arr items => bodyRedactedList items
  | .obj fields => bodyRedactedFields fields
  | _ => true

def bodyRedactedList : List Json → Bool
  | [] => true
  | x :: rest => bodyRedacted x && bodyRedactedList rest

def bodyRedactedFields : List (String × Json) → Bool
  | [] => true
  | (k, v) :: rest =>
      (if sensitiveBodyKeyTest k then
        (match v with
         | .str s => decide (s = "[REDACTED]")
         | _ => false)
       else bodyRedacted v) && bodyRedactedFields rest

end

/-- Output of `redactBody` always satisfies the redactedness predicate. -/
theorem bodyRedacted_redactBody : ∀ v, bodyRedacted (redactBody v) = true := by
  intro v
  induction v using Json.strongInduction with
  | hnull => rfl
  | hbool b => rfl
  | hnum n => rfl
  | hstr s => rfl
  | harr items ih =>
      show bodyRedactedList (redactBodyList items) = true
      induction items with
      | nil => rfl
      | cons x rest ihrest =>
          have hx := ih x (by simp)
          have hrest := ihrest (fun y hy => ih y (by simp [hy]))
          simp [redactBodyList, bodyRedactedList, hx, hrest]
  | hobj fields ih =>
      show bodyRedactedFields (redactBodyFields fields) = true
      induction fields with
      | nil => rfl
      | cons kv rest ihrest =>
          obtain ⟨k, v⟩ := kv
          have hrest := ihrest (fun y hy => ih y (by simp [hy]))
          by_cases hk : sensitiveBodyKeyTest k = true
          · have hred : redactBodyFields ((k, v) :: rest)
                = (k, Json.str ("[REDACTED]")) :: redactBodyFields rest := by
              simp only [redactBodyFields]
              rw [if_pos hk]
            rw [hred]
            simp only [bodyRedactedFields]
            rw [if_pos hk]
            simp [hrest]
          · have hv := ih (k, v) (by simp)
            have hred : redactBodyFields ((k, v) :: rest)
                = (k, redactBody v) :: redactBodyFields rest := by
              simp only [redactBodyFields]
              rw [if_neg hk]
            rw [hred]
            simp only [bodyRedactedFields]
            rw [if_neg hk]
            simp only at hv
            simp [hrest, hv]

/-- Cleanliness of one execute response: no sensitive header name, and a
redacted body. -/
def responseCleanB (r : ExecuteResponse) : Bool :=
  r.headers.all (fun kv => !sensitiveHeaderTest kv.1) && bodyRedacted r.body

/-- Cleanliness lifted to a throwing-or-returning outcome (errors carry no
response). -/
def responseCleanExcept : Except ToolError ExecuteResponse → Bool
  | .ok r => responseCleanB r
  | .error _ => true

/-- Cleanliness of every snapshot in the read cache. -/
def cacheCleanB (cache : ReadCache) : Bool :=
  cache.all (fun kv => responseCleanB kv.2.response)

/-- Totality of `safeSerialize` on tree-shaped values. -/
theorem safeSerialize_isSome (v : Json) : ∃ s, safeSerialize v = some s := by
  cases v <;> exact ⟨_, rfl⟩

/-- Truncation preserves redactedness: the envelope's keys are not
sensitive and its values are atomic. -/
theorem bodyRedacted_truncateBody (cfg : AppConfig) (v : Json)
    (h : bodyRedacted v = true) :
    bodyRedacted (truncateBodyForOutput cfg v).body = true := by
  unfold truncateBodyForOutput
  obtain ⟨s, hs⟩ := safeSerialize_isSome v
  rw [hs]
  dsimp only
  by_cases hle : s.utf8ByteSize ≤ cfg.executeMaxBodyBytes
  · rw [if_pos hle]
    exact h
  · rw [if_neg hle]
    have h1 : sensitiveBodyKeyTest ("truncated") = false := by decide
    have h2 : sensitiveBodyKeyTest ("original_size_bytes") = false := by decide
    have h3 : sensitiveBodyKeyTest ("preview") = false := by decide
    have h4 : sensitiveBodyKeyTest ("preview_is_partial") = false := by decide
    show bodyRedactedFields _ = true
    simp [bodyRedactedFields, bodyRedacted, h1, h2, h3, h4]

/-- The header-cleaning filter leaves no sensitive header name. -/
theorem cleanHeaders_all_clean (hs : List (String × String)) :
    (hs.filter (fun kv => !sensitiveHeaderTest kv.1)).all
      (fun kv => !sensitiveHeaderTest kv.1) = true := by
  rw [List.all_eq_true]
  intro kv hkv
  exact (List.mem_filter.mp hkv).2

/-- A found binding belongs to the association list. -/
theorem mapGet?_mem {α : Type} (m : List (String × α)) (k : String) (v : α)
    (h : mapGet? m k = some v) : (k, v) ∈ m := by
  unfold mapGet? at h
  cases hfind : m.find? (fun kv => kv.1 = k) with
  | none => rw [hfind] at h; exact absurd h (by simp)
  | some kv =>
      rw [hfind] at h
      simp at h
      have hmem := List.mem_of_find?_eq_some hfind
      have hcond := List.find?_some hfind
      simp at hcond
      obtain ⟨k', v'⟩ := kv
      simp at hcond h
      rw [← hcond, ← h]
      exact hmem

/-- Filtering preserves cache cleanliness. -/
theorem cacheCleanB_filter (cache : ReadCache) (p : String × CachedReadEntry → Bool)
    (h : cacheCleanB cache = true) : cacheCleanB (cache.filter p) = true := by
  unfold cacheCleanB at h ⊢
  rw [List.all_eq_true] at h ⊢
  intro kv hkv
  exact h kv (List.mem_filter.mp hkv).1

/-- A cache hit returns a snapshot as clean as the stored one (the extra
`served_from_read_cache` warning does not touch headers or body), and
leaves the cache clean. -/
theorem getReadCacheEntry_clean (cache : ReadCache) (now : Int) (key : String)
    (hclean : cacheCleanB cache = true) :
    (∀ r, (getReadCacheEntry cache now key).1 = some r → responseCleanB r = true) ∧
    cacheCleanB (getReadCacheEntry cache now key).2 = true := by
  unfold getReadCacheEntry
  cases hfind : mapGet? cache key with
  | none => exact ⟨fun r hr => absurd hr (by simp), hclean⟩
  | some entry =>
      have hmem := mapGet?_mem cache key entry hfind
      have hent : responseCleanB entry.response = true := by
        unfold cacheCleanB at hclean
        rw [List.all_eq_true] at hclean
        exact hclean (key, entry) hmem
      dsimp only
      by_cases hexp : entry.expiresAt ≤ now
      · rw [if_pos hexp]
        exact ⟨fun r hr => absurd hr (by simp),
          cacheCleanB_filter cache _ hclean⟩
      · rw [if_neg hexp]
        refine ⟨fun r hr => ?_, hclean⟩
        simp only [Option.some.injEq] at hr
        rw [← hr]
        exact hent

/-- Insertion of a clean snapshot preserves cache cleanliness. -/
theorem cacheCleanB_mapSet (cache : ReadCache) (key : String)
    (entry : CachedReadEntry) (hclean : cacheCleanB cache = true)
    (hentry : responseCleanB entry.response = true) :
    cacheCleanB (mapSet cache key entry) = true := by
  induction cache with
  | nil => simp [mapSet, cacheCleanB, hentry]
  | cons kv rest ih =>
      obtain ⟨k', e'⟩ := kv
      unfold cacheCleanB at hclean
      simp only [List.all_cons, Bool.and_eq_true] at hclean
      have hrest := ih hclean.2
      by_cases hk : k' = key
      · subst hk
        have hset : mapSet ((k', e') :: rest) k' entry = (k', entry) :: rest := by
          simp [mapSet]
        rw [hset]
        unfold cacheCleanB
        simp only [List.all_cons, Bool.and_eq_true]
        exact ⟨hentry, hclean.2⟩
      · simp only [mapSet, hk, if_false, ite_false]
        unfold cacheCleanB
        simp only [List.all_cons, Bool.and_eq_true]
        exact ⟨hclean.1, hrest⟩

/-- Pruning preserves cache cleanliness. -/
theorem cacheCleanB_prune (cache : ReadCache) (now : Int)
    (h : cacheCleanB cache = true) :
    cacheCleanB (pruneReadCache cache now) = true := by
  unfold pruneReadCache
  have hkept := cacheCleanB_filter cache
    (fun kv => !decide (kv.2.expiresAt ≤ now)) h
  by_cases hlen :
      (cache.filter (fun kv => !decide (kv.2.expiresAt ≤ now))).length ≤ 1000
  · rw [if_pos hlen]
    exact hkept
  · rw [if_neg hlen]
    exact cacheCleanB_filter _ _ hkept

/-- Storing a clean snapshot keeps the cache clean. -/
theorem cacheCleanB_setEntry (cfg : AppConfig) (cache : ReadCache) (now : Int)
    (key : String) (response : ExecuteResponse)
    (hclean : cacheCleanB cache = true)
    (hresp : responseCleanB response = true) :
    cacheCleanB (setReadCacheEntry cfg cache now key response) = true := by
  unfold setReadCacheEntry
  exact cacheCleanB_mapSet _ _ _ (cacheCleanB_prune cache now hclean) hresp

/-- A response assembled from filtered headers and a redacted body is
clean, whatever its other fields. -/
theorem responseCleanB_build (env : RequestEnvelope) (st : Nat)
    (hs : List (String × String)) (body0 : Json) (rid : Option String)
    (w : Option (List String))
    (hh : hs.all (fun kv => !sensitiveHeaderTest kv.1) = true)
    (hb : bodyRedacted body0 = true) :
    responseCleanB
      { request := env, status := st, headers := hs, body := body0,
        request_id := rid, warnings := w } = true := by
  unfold responseCleanB
  rw [Bool.and_eq_true]
  exact ⟨hh, hb⟩

/-- C5 (amended to the calls that do not run in dry-run mode): every
response returned by `execute` has no sensitive header name in its
headers and no sensitive body key bound to anything but `"[REDACTED]"`,
and the read cache stays clean, provided it was clean before the call. -/
theorem execute_redacts_headers_and_body
    (cfg : AppConfig) (ext : ExternalFns)
    (getOperation : String → Option HerokuOperation)
    (rootSchema : Option Json) (accessToken : Option String)
    (oracle : Nat → FetchOutcome) (now : Int) (cache : ReadCache)
    (input : ExecuteRequest) (userId : String)
    (hcache : cacheCleanB cache = true)
    (hdry : input.dry_run.getD false = false) :
    responseCleanExcept
      (execute cfg ext getOperation rootSchema accessToken oracle now cache
        input userId).result = true ∧
    cacheCleanB
      (execute cfg ext getOperation rootSchema accessToken oracle now cache
        input userId).cache = true := by
  unfold execute
  cases hop : getOperation input.operation_id with
  | none => exact ⟨rfl, hcache⟩
  | some operation =>
  dsimp only
  cases hv1 : validatePathParams operation (input.path_params.getD []) with
  | error e => exact ⟨rfl, hcache⟩
  | ok u1 =>
  dsimp only
  cases hv2 : validateQueryParams (input.query_params.getD []) with
  | error e => exact ⟨rfl, hcache⟩
  | ok u2 =>
  dsimp only
  cases hv3 : validateBody ext rootSchema operation input.body with
  | error e => exact ⟨rfl, hcache⟩
  | ok u3 =>
  dsimp only
  rw [hdry, if_neg Bool.false_ne_true]
  by_cases hgate : (operation.isMutating && !cfg.allowWrites) = true
  · rw [if_pos hgate]
    exact ⟨rfl, hcache⟩
  · rw [if_neg hgate]
    by_cases htok : (operation.isMutating
        && decide (input.confirm_write_token
          ≠ some (createWriteConfirmationToken ext.hmacB64url
              { secret := cfg.writeConfirmationSecret, userId := userId,
                operationId := operation.operationId,
                pathParams := input.path_params.getD [],
                queryParams := input.query_params.getD [],
                body := input.body.getD .null }))) = true
    · rw [if_pos htok]
      exact ⟨rfl, hcache⟩
    · rw [if_neg htok]
      cases accessToken with
      | none => exact ⟨rfl, hcache⟩
      | some tok =>
      dsimp only
      cases hkey : getReadCacheKey cfg operation
          { method := operation.method,
            url := ext.buildUrl cfg.herokuApiBaseUrl
              (renderPath operation (input.path_params.getD []))
              ((input.query_params.getD []).map
                (fun kv => (kv.1, jsStringOfPrim kv.2))),
            operation_id := operation.operationId } userId with
      | some key =>
          dsimp only
          obtain ⟨hhit, hafter⟩ := getReadCacheEntry_clean cache now key hcache
          cases hlook : (getReadCacheEntry cache now key).1 with
          | some cachedResponse =>
              dsimp only
              exact ⟨hhit cachedResponse hlook, hafter⟩
          | none =>
              dsimp only
              cases hfetch : (fetchWithRetry cfg oracle
                  ([("GET" : String), "HEAD"].contains operation.method)).1 with
              | error e => exact ⟨rfl, hafter⟩
              | ok response =>
                  dsimp only
                  by_cases hok : (!response.ok) = true
                  · rw [if_pos hok]
                    exact ⟨rfl, hafter⟩
                  · rw [if_neg hok]
                    refine ⟨responseCleanB_build _ _ _ _ _ _
                      (cleanHeaders_all_clean response.headers)
                      (bodyRedacted_truncateBody cfg _ (bodyRedacted_redactBody _)), ?_⟩
                    exact cacheCleanB_setEntry cfg _ now key _ hafter
                      (responseCleanB_build _ _ _ _ _ _
                        (cleanHeaders_all_clean response.headers)
                        (bodyRedacted_truncateBody cfg _ (bodyRedacted_redactBody _)))
      | none =>
          dsimp only
          cases hfetch : (fetchWithRetry cfg oracle
              ([("GET" : String), "HEAD"].contains operation.method)).1 with
          | error e => exact ⟨rfl, hcache⟩
          | ok response =>
              dsimp only
              by_cases hok : (!response.ok) = true
              · rw [if_pos hok]
                exact ⟨rfl, hcache⟩
              · rw [if_neg hok]
                exact ⟨responseCleanB_build _ _ _ _ _ _
                  (cleanHeaders_all_clean response.headers)
                  (bodyRedacted_truncateBody cfg _ (bodyRedacted_redactBody _)), hcache⟩

/-- Concrete executor configuration used by the execute fixtures,
mirroring the unit tests' `baseConfig`. -/
def cfgExecW : AppConfig :=
  { herokuApiBaseUrl := "https://api.heroku.com",
    herokuAcceptHeader := "application/vnd.heroku+json; version=3",
    allowWrites := false, requestTimeoutMs := 5000, maxRetries := 2,
    readCacheTtlMs := 5000, executeMaxBodyBytes := 48000,
    executeBodyPreviewChars := 6000, writeConfirmationSecret := "unit-test-secret" }

/-- Concrete stand-ins for the external primitives, playing the role the
injected `fetchFn`/validator stubs play in the repository's unit tests. -/
def extExecW : ExternalFns :=
  { hmacB64url := fun secret payload => secret ++ "#" ++ payload,
    ajvValidate := fun _ _ => true,
    ajvErrorsText := fun _ _ => "",
    jsonParse := fun s => some (.str s),
    buildUrl := fun base path _ => base ++ path }

/-- Fixture read operation `GET /apps`. -/
def opGetAppsW : HerokuOperation :=
  { operationId := "GET /apps", method := "GET", pathTemplate := "/apps",
    rawHref := "/apps", definitionName := "app", isMutating := false }

/-- Fixture mutating operation `POST /apps`. -/
def opPostAppsW : HerokuOperation :=
  { operationId := "POST /apps", method := "POST", pathTemplate := "/apps",
    rawHref := "/apps", definitionName := "app", isMutating := true }

/-- Fixture upstream that always answers 200 with one sensitive header. -/
def oracle200W : Nat → FetchOutcome := fun _ =>
  .success { status := 200,
             headers := [("content-type", "application/json"),
                         ("request-id", "req-1"), ("set-cookie", "sid=1")],
             bodyText := "ok" }

/-- Counterexample to C5 as stated over all execute calls: a dry-run call
on a mutating operation returns a response (status 0) whose body binds
the key `confirm_write_token` — which matches the sensitive-body pattern
through its `token` substring — to the minted token rather than to
`"[REDACTED]"`. -/
theorem execute_redaction_counterexample :
    resultStatus? (execute cfgExecW extExecW (fun _ => some opPostAppsW)
      (some (.obj [])) (some ("tok")) oracle200W 0 []
      { operation_id := "POST /apps", dry_run := some true } ("u1")).result
      = some 0 ∧
    bodyRedacted (resultBody (execute cfgExecW extExecW (fun _ => some opPostAppsW)
      (some (.obj [])) (some ("tok")) oracle200W 0 []
      { operation_id := "POST /apps", dry_run := some true } ("u1")).result)
      = false := by
  decide

/-- Concrete instance of the amended redaction theorem: a non-dry-run
`GET /apps` call against an upstream answering with a `set-cookie` header
returns a clean response and leaves the (empty) cache clean. -/
theorem execute_redacts_headers_and_body_witness :
    cacheCleanB [] = true ∧
    (({ operation_id := "GET /apps" } : ExecuteRequest).dry_run.getD false) = false ∧
    responseCleanExcept (execute cfgExecW extExecW (fun _ => some opGetAppsW)
      (some (.obj [])) (some ("tok")) oracle200W 0 []
      { operation_id := "GET /apps" } ("u1")).result = true ∧
    cacheCleanB (execute cfgExecW extExecW (fun _ => some opGetAppsW)
      (some (.obj [])) (some ("tok")) oracle200W 0 []
      { operation_id := "GET /apps" } ("u1")).cache = true := by
  have h := execute_redacts_headers_and_body cfgExecW extExecW
    (fun _ => some opGetAppsW) (some (.obj [])) (some ("tok")) oracle200W 0 []
    { operation_id := "GET /apps" } ("u1") (by decide) (by decide)
  exact ⟨by decide, by decide, h.1, h.2⟩

/-- C1: on a mutating operation with `dry_run` not set, no upstream fetch
happens unless the global allow-writes flag is on and the supplied
`confirm_write_token` equals the freshly recomputed expected token; once
the request passes validation, writes-disabled calls fail with
`WRITES_DISABLED` (403) and missing or non-matching tokens fail with
`WRITE_CONFIRMATION_REQUIRED` (403), both with zero upstream fetches. -/
theorem write_gate_blocks_unconfirmed_mutations
    (cfg : AppConfig) (ext : ExternalFns)
    (getOperation : String → Option HerokuOperation)
    (rootSchema : Option Json) (accessToken : Option String)
    (oracle : Nat → FetchOutcome) (now : Int) (cache : ReadCache)
    (input : ExecuteRequest) (userId : String) (operation : HerokuOperation)
    (hop : getOperation input.operation_id = some operation)
    (hmut : operation.isMutating = true)
    (hdry : input.dry_run.getD false = false) :
    (0 < (execute cfg ext getOperation rootSchema accessToken oracle now cache
        input userId).fetchCount →
      cfg.allowWrites = true ∧
      input.confirm_write_token = some (createWriteConfirmationToken ext.hmacB64url
        { secret := cfg.writeConfirmationSecret, userId := userId,
          operationId := operation.operationId,
          pathParams := input.path_params.getD [],
          queryParams := input.query_params.getD [],
          body := input.body.getD .null })) ∧
    (validatePathParams operation (input.path_params.getD []) = .ok () →
     validateQueryParams (input.query_params.getD []) = .ok () →
     validateBody ext rootSchema operation input.body = .ok () →
      (cfg.allowWrites = false →
        (execute cfg ext getOperation rootSchema accessToken oracle now cache
          input userId).result =
          .error { message := "Write operation blocked: ALLOW_WRITES=false",
                   code := "WRITES_DISABLED", status := some 403 } ∧
        (execute cfg ext getOperation rootSchema accessToken oracle now cache
          input userId).fetchCount = 0) ∧
      (cfg.allowWrites = true →
       input.confirm_write_token ≠ some (createWriteConfirmationToken ext.hmacB64url
         { secret := cfg.writeConfirmationSecret, userId := userId,
           operationId := operation.operationId,
           pathParams := input.path_params.getD [],
           queryParams := input.query_params.getD [],
           body := input.body.getD .null }) →
        (execute cfg ext getOperation rootSchema accessToken oracle now cache
          input userId).result =
          .error { message :=
                     "Invalid or missing confirm_write_token. Run with dry_run=true first.",
                   code := "WRITE_CONFIRMATION_REQUIRED", status := some 403 } ∧
        (execute cfg ext getOperation rootSchema accessToken oracle now cache
          input userId).fetchCount = 0)) := by
  unfold execute
  rw [hop]
  dsimp only
  cases hv1 : validatePathParams operation (input.path_params.getD []) with
  | error e =>
      dsimp only
      refine ⟨fun h => absurd h (by decide), fun h1 _ _ => ?_⟩
      exact absurd h1 (by simp)
  | ok u1 =>
  dsimp only
  cases hv2 : validateQueryParams (input.query_params.getD []) with
  | error e =>
      dsimp only
      refine ⟨fun h => absurd h (by decide), fun _ h2 _ => ?_⟩
      exact absurd h2 (by simp)
  | ok u2 =>
  dsimp only
  cases hv3 : validateBody ext rootSchema operation input.body with
  | error e =>
      dsimp only
      refine ⟨fun h => absurd h (by decide), fun _ _ h3 => ?_⟩
      exact absurd h3 (by simp)
  | ok u3 =>
  dsimp only
  rw [hdry, if_neg Bool.false_ne_true]
  by_cases hgate : (operation.isMutating && !cfg.allowWrites) = true
  · rw [if_pos hgate]
    dsimp only
    have hallow : cfg.allowWrites = false := by
      rw [hmut] at hgate
      simpa using hgate
    refine ⟨fun h => absurd h (by decide), fun _ _ _ => ?_⟩
    exact ⟨fun _ => ⟨rfl, rfl⟩, fun hat _ => absurd (hallow ▸ hat) (by decide)⟩
  · rw [if_neg hgate]
    have hallow : cfg.allowWrites = true := by
      rw [hmut] at hgate
      simpa using hgate
    by_cases htok : (operation.isMutating
        && decide (input.confirm_write_token
          ≠ some (createWriteConfirmationToken ext.hmacB64url
              { secret := cfg.writeConfirmationSecret, userId := userId,
                operationId := operation.operationId,
                pathParams := input.path_params.getD [],
                queryParams := input.query_params.getD [],
                body := input.body.getD .null }))) = true
    · rw [if_pos htok]
      dsimp only
      refine ⟨fun h => absurd h (by decide), fun _ _ _ => ?_⟩
      exact ⟨fun hf => absurd (hf ▸ hallow) (by decide),
             fun _ _ => ⟨rfl, rfl⟩⟩
    · have htokeq : input.confirm_write_token
          = some (createWriteConfirmationToken ext.hmacB64url
              { secret := cfg.writeConfirmationSecret, userId := userId,
                operationId := operation.operationId,
                pathParams := input.path_params.getD [],
                queryParams := input.query_params.getD [],
                body := input.body.getD .null }) := by
        rw [hmut] at htok
        simpa using htok
      refine ⟨fun _ => ⟨hallow, htokeq⟩, fun _ _ _ => ?_⟩
      exact ⟨fun hf => absurd (hf ▸ hallow) (by decide),
             fun _ hne => absurd htokeq hne⟩

/-- Concrete instance of the write gate: with writes disabled, a `PATCH`
call carrying an arbitrary token fails with `WRITES_DISABLED` 403 and no
upstream fetch; with writes enabled, a wrong token fails with
`WRITE_CONFIRMATION_REQUIRED` 403 and no upstream fetch. -/
theorem write_gate_blocks_unconfirmed_mutations_witness :
    errorCode? (execute cfgExecW extExecW (fun _ => some opPostAppsW)
      (some (.obj [])) (some ("tok")) oracle200W 0 []
      { operation_id := "POST /apps", confirm_write_token := some ("anything") }
      ("u1")).result = some (("WRITES_DISABLED" : String), some 403) ∧
    (execute cfgExecW extExecW (fun _ => some opPostAppsW)
      (some (.obj [])) (some ("tok")) oracle200W 0 []
      { operation_id := "POST /apps", confirm_write_token := some ("anything") }
      ("u1")).fetchCount = 0 ∧
    errorCode? (execute { cfgExecW with allowWrites := true } extExecW
      (fun _ => some opPostAppsW) (some (.obj [])) (some ("tok")) oracle200W 0 []
      { operation_id := "POST /apps", confirm_write_token := some ("anything") }
      ("u1")).result = some (("WRITE_CONFIRMATION_REQUIRED" : String), some 403) ∧
    (execute { cfgExecW with allowWrites := true } extExecW
      (fun _ => some opPostAppsW) (some (.obj [])) (some ("tok")) oracle200W 0 []
      { operation_id := "POST /apps", confirm_write_token := some ("anything") }
      ("u1")).fetchCount = 0 := by
  have h1 := (write_gate_blocks_unconfirmed_mutations cfgExecW extExecW
    (fun _ => some opPostAppsW) (some (.obj [])) (some ("tok")) oracle200W 0 []
    { operation_id := "POST /apps", confirm_write_token := some ("anything") }
    ("u1") opPostAppsW rfl rfl rfl).2 rfl rfl rfl
  have h2 := (write_gate_blocks_unconfirmed_mutations
    { cfgExecW with allowWrites := true } extExecW
    (fun _ => some opPostAppsW) (some (.obj [])) (some ("tok")) oracle200W 0 []
    { operation_id := "POST /apps", confirm_write_token := some ("anything") }
    ("u1") opPostAppsW rfl rfl rfl).2 rfl rfl rfl
  obtain ⟨ha, hb⟩ := h1.1 rfl
  obtain ⟨hc, hd⟩ := h2.2 rfl (by decide)
  exact ⟨by rw [ha]; rfl, hb, by rw [hc]; rfl, hd⟩

/-- Retryability of one fetch outcome exactly as the source tests it:
any thrown error, or a response with status 429 or at least 500. -/
def retryableOutcome : FetchOutcome → Bool
  | .success r => decide (r.status = 429) || decide (500 ≤ r.status)
  | .abortError => true
  | .networkError _ => true

/-- Relation between the outcome of the final fetch attempt and the value
`fetchWithRetry` settles on: the last response is returned as-is, an
abort surfaces as `REQUEST_TIMEOUT` 504, any other error as
`REQUEST_FAILED` 502. -/
def lastOutcomeMatches (cfg : AppConfig) (o : FetchOutcome)
    (res : Except ToolError UpstreamResponse) : Prop :=
  match o with
  | .success resp => res = .ok resp
  | .abortError =>
      res = .error { message := "Heroku API request timeout after "
                       ++ toString cfg.requestTimeoutMs ++ "ms",
                     code := "REQUEST_TIMEOUT", status := some 504 }
  | .networkError m =>
      res = .error { message := "Heroku API request failed: " ++ m,
                     code := "REQUEST_FAILED", status := some 502 }

/-- Behaviour of the attempt loop: a non-idempotent call fetches exactly
once; at most `fuel` fetches happen; every non-final attempt saw a
retryable outcome; and the final attempt's outcome determines the
result. -/
theorem retryLoop_spec (cfg : AppConfig) (oracle : Nat → FetchOutcome)
    (idem : Bool) (maxA : Nat) :
    ∀ fuel attempt, 1 ≤ fuel → attempt + fuel = maxA + 1 →
      (idem = false →
        (retryLoop cfg oracle idem maxA attempt fuel).2 = 1) ∧
      1 ≤ (retryLoop cfg oracle idem maxA attempt fuel).2 ∧
      (retryLoop cfg oracle idem maxA attempt fuel).2 ≤ fuel ∧
      (∀ i, attempt ≤ i →
        i + 1 < attempt + (retryLoop cfg oracle idem maxA attempt fuel).2 →
        retryableOutcome (oracle i) = true) ∧
      lastOutcomeMatches cfg
        (oracle (attempt + (retryLoop cfg oracle idem maxA attempt fuel).2 - 1))
        (retryLoop cfg oracle idem maxA attempt fuel).1 := by
  intro fuel
  induction fuel with
  | zero => intro attempt h1 _; exact absurd h1 (by decide)
  | succ fuel ih =>
      intro attempt _ hinv
      unfold retryLoop
      cases horacle : oracle attempt with
      | success r =>
          dsimp only
          by_cases hstop : (!idem || decide (attempt = maxA)) = true
          · rw [if_pos hstop]
            dsimp only
            refine ⟨fun _ => rfl, by decide, by omega, ?_, ?_⟩
            · intro i hle hlt
              omega
            · have hidx : attempt + 1 - 1 = attempt := by omega
              rw [hidx, horacle]
              exact rfl
          · rw [if_neg hstop]
            have hidem : idem = true := by
              cases hb : idem
              · exfalso
                apply hstop
                rw [hb]
                simp
              · rfl
            have hneq : ¬attempt = maxA := by
              intro he
              apply hstop
              simp [he]
            by_cases hretry : (decide (r.status = 429) || decide (500 ≤ r.status)) = true
            · rw [if_pos hretry]
              have hrec := ih (attempt + 1) (by omega) (by omega)
              dsimp only
              refine ⟨fun hf => absurd (hf ▸ hidem) (by decide), by omega, ?_, ?_, ?_⟩
              · have := hrec.2.2.1
                omega
              · intro i hle hlt
                by_cases hi : i = attempt
                · rw [hi, horacle]
                  unfold retryableOutcome
                  exact hretry
                · exact hrec.2.2.2.1 i (by omega) (by omega)
              · have hidx : attempt
                    + ((retryLoop cfg oracle idem maxA (attempt + 1) fuel).2 + 1) - 1
                    = attempt + 1
                      + (retryLoop cfg oracle idem maxA (attempt + 1) fuel).2 - 1 := by
                  omega
                rw [hidx]
                exact hrec.2.2.2.2
            · rw [if_neg hretry]
              dsimp only
              refine ⟨fun _ => rfl, by decide, by omega, ?_, ?_⟩
              · intro i hle hlt
                omega
              · have hidx : attempt + 1 - 1 = attempt := by omega
                rw [hidx, horacle]
                exact rfl
      | abortError =>
          dsimp only
          by_cases hstop : (decide (maxA ≤ attempt) || !idem) = true
          · rw [if_pos hstop]
            dsimp only
            refine ⟨fun _ => rfl, by decide, by omega, ?_, ?_⟩
            · intro i hle hlt
              omega
            · have hidx : attempt + 1 - 1 = attempt := by omega
              rw [hidx, horacle]
              exact rfl
          · rw [if_neg hstop]
            have hidem : idem = true := by
              cases hb : idem
              · exfalso
                apply hstop
                rw [hb]
                simp
              · rfl
            have hneq : ¬maxA ≤ attempt := by
              intro he
              apply hstop
              simp [he]
            have hrec := ih (attempt + 1) (by omega) (by omega)
            dsimp only
            refine ⟨fun hf => absurd (hf ▸ hidem) (by decide), by omega, ?_, ?_, ?_⟩
            · have := hrec.2.2.1
              omega
            · intro i hle hlt
              by_cases hi : i = attempt
              · rw [hi, horacle]
                rfl
              · exact hrec.2.2.2.1 i (by omega) (by omega)
            · have hidx : attempt
                  + ((retryLoop cfg oracle idem maxA (attempt + 1) fuel).2 + 1) - 1
                  = attempt + 1
                    + (retryLoop cfg oracle idem maxA (attempt + 1) fuel).2 - 1 := by
                omega
              rw [hidx]
              exact hrec.2.2.2.2
      | networkError m =>
          dsimp only
          by_cases hstop : (decide (maxA ≤ attempt) || !idem) = true
          · rw [if_pos hstop]
            dsimp only
            refine ⟨fun _ => rfl, by decide, by omega, ?_, ?_⟩
            · intro i hle hlt
              omega
            · have hidx : attempt + 1 - 1 = attempt := by omega
              rw [hidx, horacle]
              exact rfl
          · rw [if_neg hstop]
            have hidem : idem = true := by
              cases hb : idem
              · exfalso
                apply hstop
                rw [hb]
                simp
              · rfl
            have hneq : ¬maxA ≤ attempt := by
              intro he
              apply hstop
              simp [he]
            have hrec := ih (attempt + 1) (by omega) (by omega)
            dsimp only
            refine ⟨fun hf => absurd (hf ▸ hidem) (by decide), by omega, ?_, ?_, ?_⟩
            · have := hrec.2.2.1
              omega
            · intro i hle hlt
              by_cases hi : i = attempt
              · rw [hi, horacle]
                rfl
              · exact hrec.2.2.2.1 i (by omega) (by omega)
            · have hidx : attempt
                  + ((retryLoop cfg oracle idem maxA (attempt + 1) fuel).2 + 1) - 1
                  = attempt + 1
                    + (retryLoop cfg oracle idem maxA (attempt + 1) fuel).2 - 1 := by
                omega
              rw [hidx]
              exact hrec.2.2.2.2

/-- C4 (amended: the retry condition is status 429 or at least 500, with
no upper bound at 599): a non-idempotent call performs exactly one fetch;
an idempotent call performs between 1 and `maxRetries + 1` fetches; every
fetch before the last one saw a retryable outcome; and the final
attempt's outcome is what the caller receives — the last response as-is,
aborts as `REQUEST_TIMEOUT` 504, other errors as `REQUEST_FAILED` 502. -/
theorem fetchWithRetry_retry_contract (cfg : AppConfig)
    (oracle : Nat → FetchOutcome) (idem : Bool) :
    (idem = false → (fetchWithRetry cfg oracle idem).2 = 1) ∧
    1 ≤ (fetchWithRetry cfg oracle idem).2 ∧
    (fetchWithRetry cfg oracle idem).2 ≤ cfg.maxRetries + 1 ∧
    (∀ i, 1 ≤ i → i < (fetchWithRetry cfg oracle idem).2 →
      retryableOutcome (oracle i) = true) ∧
    lastOutcomeMatches cfg (oracle (fetchWithRetry cfg oracle idem).2)
      (fetchWithRetry cfg oracle idem).1 := by
  have hmax : max 1 (cfg.maxRetries + 1) = cfg.maxRetries + 1 := by omega
  have h := retryLoop_spec cfg oracle idem (max 1 (cfg.maxRetries + 1))
    (max 1 (cfg.maxRetries + 1)) 1 (by omega) (by omega)
  unfold fetchWithRetry
  dsimp only
  refine ⟨h.1, h.2.1, by have := h.2.2.1; omega, ?_, ?_⟩
  · intro i h1 h2
    exact h.2.2.2.1 i h1 (by omega)
  · have hidx : 1 + (retryLoop cfg oracle idem (max 1 (cfg.maxRetries + 1))
        1 (max 1 (cfg.maxRetries + 1))).2 - 1
        = (retryLoop cfg oracle idem (max 1 (cfg.maxRetries + 1))
            1 (max 1 (cfg.maxRetries + 1))).2 := by
      omega
    have h5 := h.2.2.2.2
    rw [hidx] at h5
    exact h5

/-- Status of a successful fetch outcome. -/
def outcomeStatus? : FetchOutcome → Option Nat
  | .success r => some r.status
  | _ => none

/-- Fixture upstream that always answers status 600. -/
def oracle600W : Nat → FetchOutcome := fun _ =>
  .success { status := 600, headers := [], bodyText := "" }

/-- Counterexample to C4 as stated: with `maxRetries = 2`, an idempotent
call against an upstream that always answers status 600 is fetched three
times — further attempts are made although 600 is neither 429 nor in
[500, 599], because the source retries on every status of at least 500. -/
theorem retry_beyond_599_counterexample :
    (fetchWithRetry cfgExecW oracle600W true).2 = 3 ∧
    outcomeStatus? (oracle600W 1) = some 600 ∧
    outcomeStatus? (oracle600W 2) = some 600 ∧
    ¬(600 = 429 ∨ (500 ≤ 600 ∧ 600 ≤ 599)) := by
  decide

/-- Fixture upstream answering 500 on the first attempt and 200 after. -/
def oracleRetryW : Nat → FetchOutcome := fun attempt =>
  if attempt = 1 then .success { status := 500, headers := [], bodyText := "" }
  else .success { status := 200, headers := [], bodyText := "" }

/-- Concrete instance of the retry contract: a non-idempotent call against
the status-600 upstream is fetched exactly once, and the idempotent
500-then-200 call stays within `maxRetries + 1` attempts and returns its
final response. -/
theorem fetchWithRetry_retry_contract_witness :
    (fetchWithRetry cfgExecW oracle600W false).2 = 1 ∧
    (fetchWithRetry cfgExecW oracleRetryW true).2 ≤ cfgExecW.maxRetries + 1 ∧
    lastOutcomeMatches cfgExecW
      (oracleRetryW (fetchWithRetry cfgExecW oracleRetryW true).2)
      (fetchWithRetry cfgExecW oracleRetryW true).1 := by
  have h1 := fetchWithRetry_retry_contract cfgExecW oracle600W false
  have h2 := fetchWithRetry_retry_contract cfgExecW oracleRetryW true
  exact ⟨h1.1 rfl, h2.2.2.1, h2.2.2.2.2⟩

/-- Absence in the map equals no binding with that key. -/
theorem mapGet?_eq_none_iff {α : Type} (m : List (String × α)) (k : String) :
    mapGet? m k = none ↔ ∀ kv ∈ m, kv.1 ≠ k := by
  unfold mapGet?
  rw [Option.map_eq_none']
  constructor
  · intro h kv hkv
    have := List.find?_eq_none.mp h kv hkv
    simpa using this
  · intro h
    apply List.find?_eq_none.mpr
    intro kv hkv
    simpa using h kv hkv

/-- Updating a present key keeps the key sequence. -/
theorem mapSet_fst_of_found {α : Type} (m : List (String × α)) (k : String)
    (v e : α) (h : mapGet? m k = some e) :
    (mapSet m k v).map Prod.fst = m.map Prod.fst := by
  induction m with
  | nil => rw [mapGet?_nil] at h; exact absurd h (by simp)
  | cons kv rest ih =>
      obtain ⟨k', v'⟩ := kv
      by_cases hk : k' = k
      · subst hk
        simp [mapSet]
      · rw [mapGet?_cons, if_neg hk] at h
        simp [mapSet, hk, ih h]

/-- Inserting an absent key appends it to the key sequence. -/
theorem mapSet_fst_of_absent {α : Type} (m : List (String × α)) (k : String)
    (v : α) (h : mapGet? m k = none) :
    (mapSet m k v).map Prod.fst = m.map Prod.fst ++ [k] := by
  induction m with
  | nil => simp [mapSet]
  | cons kv rest ih =>
      obtain ⟨k', v'⟩ := kv
      by_cases hk : k' = k
      · rw [mapGet?_cons, if_pos hk] at h
        exact absurd h (by simp)
      · rw [mapGet?_cons, if_neg hk] at h
        simp [mapSet, hk, ih h]

/-- Every binding after an insertion is the inserted one or an old one. -/
theorem mem_mapSet {α : Type} (m : List (String × α)) (k : String) (v : α) :
    ∀ kv ∈ mapSet m k v, kv = (k, v) ∨ kv ∈ m := by
  induction m with
  | nil => intro kv hkv; simp [mapSet] at hkv; exact Or.inl hkv
  | cons kv0 rest ih =>
      obtain ⟨k', v'⟩ := kv0
      intro kv hkv
      by_cases hk : k' = k
      · subst hk
        simp only [mapSet, if_pos rfl] at hkv
        rcases List.mem_cons.mp hkv with h | h
        · exact Or.inl h
        · exact Or.inr (List.mem_cons.mpr (Or.inr h))
      · simp only [mapSet, if_neg hk] at hkv
        rcases List.mem_cons.mp hkv with h | h
        · exact Or.inr (List.mem_cons.mpr (Or.inl h))
        · rcases ih kv h with h2 | h2
          · exact Or.inl h2
          · exact Or.inr (List.mem_cons.mpr (Or.inr h2))

/-- Well-formedness of the dedup map built by the normalizer: keys are
pairwise distinct, each binding's key is its operation's `operationId`,
and every `operationId` is `method ++ " " ++ pathTemplate`. -/
def catalogMapInv (m : List (String × HerokuOperation)) : Prop :=
  (m.map Prod.fst).Nodup ∧
  ∀ kv ∈ m, kv.1 = kv.2.operationId ∧
    kv.2.operationId = kv.2.method ++ " " ++ kv.2.pathTemplate

/-- One link step preserves the dedup-map invariant: a repeated key merges
in place, a fresh key appends a fresh entry whose id is its key. -/
theorem processLink_inv (urlPathname : String → String)
    (deduped : List (String × HerokuOperation)) (definitionName : String)
    (linkRaw : Json) (hinv : catalogMapInv deduped) :
    catalogMapInv (processLink urlPathname deduped definitionName linkRaw) := by
  unfold processLink
  cases hhref : objField? linkRaw ("href") with
  | none => exact hinv
  | some j =>
      cases j with
      | str href =>
          dsimp only
          cases hfound : mapGet? deduped
              (coerceMethod (objField? linkRaw ("method")) ++ " "
                ++ (normalizeHrefToPath urlPathname href).pathTemplate) with
          | some existing =>
              dsimp only
              constructor
              · rw [mapSet_fst_of_found _ _ _ _ hfound]
                exact hinv.1
              · intro kv hkv
                rcases mem_mapSet _ _ _ kv hkv with h | h
                · have hmem := mapGet?_mem _ _ _ hfound
                  have hold := hinv.2 _ hmem
                  rw [h]
                  refine ⟨?_, hold.2⟩
                  exact hold.1.trans rfl
                · exact hinv.2 kv h
          | none =>
              dsimp only
              constructor
              · rw [mapSet_fst_of_absent _ _ _ hfound]
                rw [List.nodup_append]
                refine ⟨hinv.1, List.nodup_singleton _, ?_⟩
                intro a ha hb
                simp only [List.mem_singleton] at hb
                subst hb
                rcases List.mem_map.mp ha with ⟨kv, hkv, hfst⟩
                have := (mapGet?_eq_none_iff _ _).mp hfound kv hkv
                exact this hfst
              · intro kv hkv
                rcases mem_mapSet _ _ _ kv hkv with h | h
                · rw [h]
                  exact ⟨rfl, rfl⟩
                · exact hinv.2 kv h
      | null => exact hinv
      | bool b => exact hinv
      | num n => exact hinv
      | arr items => exact hinv
      | obj fields => exact hinv

/-- The link fold preserves the dedup-map invariant. -/
theorem processLinks_inv (urlPathname : String → String)
    (definitionName : String) (links : List Json)
    (deduped : List (String × HerokuOperation))
    (hinv : catalogMapInv deduped) :
    catalogMapInv (processLinks urlPathname definitionName deduped links) := by
  induction links generalizing deduped with
  | nil => exact hinv
  | cons link rest ih =>
      exact ih _ (processLink_inv urlPathname deduped definitionName link hinv)

/-- The definitions fold preserves the dedup-map invariant. -/
theorem processDefinitions_inv (urlPathname : String → String)
    (definitions : List (String × Json))
    (deduped : List (String × HerokuOperation))
    (hinv : catalogMapInv deduped) :
    catalogMapInv (processDefinitions urlPathname deduped definitions) := by
  induction definitions generalizing deduped with
  | nil => exact hinv
  | cons entry rest ih =>
      obtain ⟨definitionName, definition⟩ := entry
      unfold processDefinitions
      cases hlinks : objField? definition ("links") with
      | none => exact ih _ hinv
      | some j =>
          cases j with
          | arr links =>
              exact ih _ (processLinks_inv urlPathname definitionName links deduped hinv)
          | null => exact ih _ hinv
          | bool b => exact ih _ hinv
          | num n => exact ih _ hinv
          | str s => exact ih _ hinv
          | obj fields => exact ih _ hinv

/-- C7: the catalog produced by `normalizeHerokuSchema` has pairwise
distinct `operation_id`s, each equal to `"<METHOD> <path_template>"` of
its operation; a raw link whose key is already present merges into the
first-seen operation through `mergeOperations` — keeping the entry count,
concatenating descriptions, unioning required params in first-seen order
and appending search text — instead of adding a second entry. -/
theorem normalizeHerokuSchema_unique_merged_ids
    (urlPathname : String → String) (rootSchema : Json) :
    ((normalizeHerokuSchema urlPathname rootSchema).operations.map
      HerokuOperation.operationId).Nodup ∧
    (∀ op ∈ (normalizeHerokuSchema urlPathname rootSchema).operations,
      op.operationId = op.method ++ " " ++ op.pathTemplate) ∧
    (∀ (m : List (String × HerokuOperation)) (key : String)
       (existing merged : HerokuOperation),
      mapGet? m key = some existing →
      (mapSet m key merged).length = m.length) ∧
    (∀ existing summary requiredParams searchText,
      (mergeOperations existing summary requiredParams searchText).requiredParams
        = dedupFirstSeen [] (existing.requiredParams ++ requiredParams) ∧
      (mergeOperations existing summary requiredParams searchText).searchText
        = existing.searchText ++ " " ++ searchText ∧
      (mergeOperations existing summary requiredParams searchText).operationId
        = existing.operationId) := by
  have hinv : catalogMapInv
      (processDefinitions urlPathname []
        (match objField? rootSchema ("definitions") with
         | some (.obj fields) => fields
         | _ => [])) :=
    processDefinitions_inv urlPathname _ [] ⟨List.nodup_nil, by simp⟩
  refine ⟨?_, ?_, ?_, ?_⟩
  · unfold normalizeHerokuSchema
    dsimp only
    have hmapeq :
        ((processDefinitions urlPathname []
          (match objField? rootSchema ("definitions") with
           | some (.obj fields) => fields
           | _ => [])).map Prod.snd).map HerokuOperation.operationId
        = (processDefinitions urlPathname []
            (match objField? rootSchema ("definitions") with
             | some (.obj fields) => fields
             | _ => [])).map Prod.fst := by
      rw [List.map_map]
      apply List.map_congr_left
      intro kv hkv
      exact (hinv.2 kv hkv).1.symm
    rw [hmapeq]
    exact hinv.1
  · unfold normalizeHerokuSchema
    dsimp only
    intro op hop
    rcases List.mem_map.mp hop with ⟨kv, hkv, hsnd⟩
    rw [← hsnd]
    exact (hinv.2 kv hkv).2
  · intro m key existing merged hfound
    have := mapSet_fst_of_found m key merged existing hfound
    have hlen := congrArg List.length this
    simpa using hlen
  · intro existing summary requiredParams searchText
    exact ⟨rfl, rfl, rfl⟩

/-- Concrete instance of the catalog invariants: two definitions whose
links collapse onto `GET /apps` yield one catalog entry with a unique,
well-formed id and a merged description. -/
theorem normalizeHerokuSchema_unique_merged_ids_witness :
    ((normalizeHerokuSchema id (Json.obj
        [("definitions", Json.obj
          [("app", Json.obj [("links", Json.arr
            [Json.obj [("href", Json.str ("/apps")), ("method", Json.str ("GET")),
                       ("title", Json.str ("List"))]])]),
           ("app-copy", Json.obj [("links", Json.arr
            [Json.obj [("href", Json.str ("/apps")), ("method", Json.str ("GET")),
                       ("description", Json.str ("dup"))]])])])])).operations.map
      HerokuOperation.operationId).Nodup ∧
    ((normalizeHerokuSchema id (Json.obj
        [("definitions", Json.obj
          [("app", Json.obj [("links", Json.arr
            [Json.obj [("href", Json.str ("/apps")), ("method", Json.str ("GET")),
                       ("title", Json.str ("List"))]])]),
           ("app-copy", Json.obj [("links", Json.arr
            [Json.obj [("href", Json.str ("/apps")), ("method", Json.str ("GET")),
                       ("description", Json.str ("dup"))]])])])])).operations.map
      HerokuOperation.operationId) = ["GET /apps"] := by
  refine ⟨(normalizeHerokuSchema_unique_merged_ids id _).1, ?_⟩
  decide

/-- Monotonicity of filter length in the predicate. -/
theorem length_filter_mono {α : Type} (l : List α) (P Q : α → Bool)
    (himp : ∀ x, Q x = true → P x = true) :
    (l.filter Q).length ≤ (l.filter P).length := by
  induction l with
  | nil => exact Nat.le_refl 0
  | cons a rest ih =>
      rw [List.filter_cons, List.filter_cons]
      by_cases hq : Q a = true
      · rw [if_pos hq, if_pos (himp a hq)]
        simpa using ih
      · rw [if_neg hq]
        by_cases hp : P a = true
        · rw [if_pos hp]
          calc (rest.filter Q).length ≤ (rest.filter P).length := ih
            _ ≤ (a :: rest.filter P).length := by simp
        · rw [if_neg hp]
          exact ih

/-- Strict filter-length decrease when some member satisfies the weaker
predicate but not the stronger one. -/
theorem length_filter_lt {α : Type} (l : List α) (P Q : α → Bool)
    (himp : ∀ x, Q x = true → P x = true) (x : α) (hx : x ∈ l)
    (hPx : P x = true) (hQx : Q x = false) :
    (l.filter Q).length < (l.filter P).length := by
  induction l with
  | nil => cases hx
  | cons a rest ih =>
      rw [List.filter_cons, List.filter_cons]
      rcases List.mem_cons.mp hx with h | h
      · subst h
        rw [if_pos hPx, if_neg (by rw [hQx]; decide)]
        exact Nat.lt_succ_of_le (length_filter_mono rest P Q himp)
      · by_cases hq : Q a = true
        · rw [if_pos hq, if_pos (himp a hq)]
          simpa using ih h
        · rw [if_neg hq]
          by_cases hp : P a = true
          · rw [if_pos hp]
            exact Nat.lt_succ_of_lt (ih h)
          · rw [if_neg hp]
            exact ih h

/-- The collision loop terminates on a fresh name whenever its fuel
exceeds the number of taken names at least as long as the candidate:
every loop pass strictly lengthens the candidate, so each pass burns one
such taken name. -/
theorem freshenName_not_mem :
    ∀ (fuel : Nat) (used : List String) (idx : Nat) (base : String),
      (used.filter (fun s => decide (base.length ≤ s.length))).length < fuel →
      freshenName used idx fuel base ∉ used := by
  intro fuel
  induction fuel with
  | zero => intro used idx base h; exact absurd h (by omega)
  | succ fuel ih =>
      intro used idx base h
      unfold freshenName
      by_cases hc : used.contains base = true
      · rw [if_pos hc]
        apply ih
        have hmem : base ∈ used := by simpa using hc
        have hlt : base.length < (base ++ "_" ++ toString idx).length := by
          rw [String.length_append, String.length_append]
          have h1 : ("_" : String).length = 1 := rfl
          omega
        have hstrict := length_filter_lt used
          (fun s => decide (base.length ≤ s.length))
          (fun s => decide ((base ++ "_" ++ toString idx).length ≤ s.length))
          (fun x hx => by
            simp only [decide_eq_true_eq] at hx ⊢
            omega)
          base hmem (by simp) (by rw [decide_eq_false_iff_not]; omega)
        omega
      · rw [if_neg hc]
        intro hmem
        exact hc (by simpa using hmem)

/-- Invariant of the href scanners: recorded parameter names are pairwise
distinct, and each is registered in `usedNames`. -/
def scanInv (st : NormState) : Prop :=
  (st.params.map PathParameter.name).Nodup ∧
  ∀ p ∈ st.params, p.name ∈ st.used

/-- The state produced by registering one fresh name keeps the scanner
invariant. -/
theorem scanInv_push (st : NormState) (name : String) (ref : Option String)
    (h : scanInv st) (hfresh : name ∉ st.used) :
    scanInv { params := st.params ++ [{ name := name, sourceRef := ref }],
              used := st.used ++ [name],
              idx := st.idx + 1 } := by
  constructor
  · rw [List.map_append, List.nodup_append]
    refine ⟨h.1, by simp, ?_⟩
    intro a ha hb
    simp only [List.map_cons, List.map_nil, List.mem_singleton] at hb
    subst hb
    rcases List.mem_map.mp ha with ⟨p, hp, hname⟩
    exact hfresh (hname ▸ h.2 p hp)
  · intro p hp
    rcases List.mem_append.mp hp with hold | hnew
    · exact List.mem_append.mpr (Or.inl (h.2 p hold))
    · simp only [List.mem_singleton] at hnew
      subst hnew
      exact List.mem_append.mpr (Or.inr (by simp))

/-- The encoded-reference pass preserves the scanner invariant. -/
theorem scanEncodedRefs_inv :
    ∀ (fuel : Nat) (s : List Char) (st : NormState), scanInv st →
      scanInv (scanEncodedRefs fuel s st).2 := by
  intro fuel
  induction fuel with
  | zero => intro s st h; exact h
  | succ fuel ih =>
      intro s st h
      unfold scanEncodedRefs
      cases s with
      | nil => exact h
      | cons c rest =>
          dsimp only
          by_cases hc : c.val = 123
          · rw [if_pos hc]
            cases rest with
            | nil => exact ih [] st h
            | cons c2 tail =>
                dsimp only
                by_cases hc2 : c2.val = 40
                · rw [if_pos hc2]
                  cases hsplit : splitAtFirstCloseBrace tail with
                  | none => exact ih (c2 :: tail) st h
                  | some pr =>
                      dsimp only
                      by_cases hcond : pr.1.getLast? = some (Char.ofNat 41)
                          ∧ 2 ≤ pr.1.length
                      · rw [if_pos hcond]
                        dsimp only
                        apply ih
                        apply scanInv_push st _ _ h
                        apply freshenName_not_mem
                        have := st.used.length_filter_le
                          (fun s => decide ((refToParamName (String.mk
                            (decodePercentEscapes pr.1.dropLast)) st.idx).length
                              ≤ s.length))
                        omega
                      · rw [if_neg hcond]
                        exact ih (c2 :: tail) st h
                · rw [if_neg hc2]
                  exact ih (c2 :: tail) st h
          · rw [if_neg hc]
            exact ih rest st h

/-- The plain-placeholder pass preserves the scanner invariant. -/
theorem scanPlainPlaceholders_inv :
    ∀ (fuel : Nat) (s : List Char) (st : NormState), scanInv st →
      scanInv (scanPlainPlaceholders fuel s st).2 := by
  intro fuel
  induction fuel with
  | zero => intro s st h; exact h
  | succ fuel ih =>
      intro s st h
      unfold scanPlainPlaceholders
      cases s with
      | nil => exact h
      | cons c rest =>
          dsimp only
          by_cases hc : c.val = 123
          · rw [if_pos hc]
            cases hsplit : splitAtFirstAnyBrace rest with
            | none => exact ih rest st h
            | some pr =>
                dsimp only
                by_cases hcond : pr.2.1.val = 125 ∧ pr.1 ≠ []
                · rw [if_pos hcond]
                  by_cases hguard : pr.1.head? = some (Char.ofNat 40)
                      ∧ pr.1.getLast? = some (Char.ofNat 41)
                  · rw [if_pos hguard]
                    exact ih pr.2.2 st h
                  · rw [if_neg hguard]
                    dsimp only
                    by_cases hused : st.used.contains
                        (sanitizeParamName (String.mk pr.1) st.idx) = true
                    · rw [if_pos hused]
                      exact ih pr.2.2 { st with idx := st.idx + 1 } h
                    · rw [if_neg hused]
                      apply ih
                      apply scanInv_push st _ _ h
                      intro hmem
                      exact hused (by simpa using hmem)
                · rw [if_neg hcond]
                  exact ih rest st h
          · rw [if_neg hc]
            exact ih rest st h

/-- Count of non-overlapping occurrences of a search string, scanning
left to right (same traversal as `replaceAllStr`). -/
def countOccurrencesAux (pat : List Char) : Nat → List Char → Nat
  | _, [] => 0
  | 0, _ => 0
  | fuel + 1, s@(_ :: rest) =>
      if pat ≠ [] && pat.isPrefixOf s then
        1 + countOccurrencesAux pat fuel (s.drop pat.length)
      else
        countOccurrencesAux pat fuel rest

/-- Occurrence count of `pat` in `s`. -/
def countOccurrences (s pat : String) : Nat :=
  countOccurrencesAux pat.toList s.toList.length s.toList

/-- Counterexample to C6 as stated: in `/x/{a}/{a}` the two plain
placeholders sanitize to the same name, yet the later one is dropped
rather than suffixed with `_1` — only one path parameter is recorded, no
parameter named `a_1` exists, and the template keeps two occurrences of
`{a}` instead of exactly one. -/
theorem plain_placeholder_collision_counterexample :
    (normalizeHrefToPath id ("/x/{a}/{a}")).pathParams.map PathParameter.name
      = ["a"] ∧
    (normalizeHrefToPath id ("/x/{a}/{a}")).pathTemplate = "/x/{a}/{a}" ∧
    countOccurrences (normalizeHrefToPath id ("/x/{a}/{a}")).pathTemplate ("{a}")
      = 2 := by
  decide

/-- C6 (amended): every `normalizeHrefToPath` result has pairwise-distinct
path-parameter names; an encoded-reference placeholder whose candidate
name is taken is retried with `_<placeholderIndex>` suffixes until the
name is unused (so it always contributes a fresh, distinct parameter),
while a plain placeholder whose sanitized name is taken contributes no
new parameter and leaves the duplicate braces in the template. -/
theorem normalizeHrefToPath_distinct_param_names
    (urlPathname : String → String) (rawHref : String) :
    ((normalizeHrefToPath urlPathname rawHref).pathParams.map
      PathParameter.name).Nodup ∧
    (∀ (used : List String) (idx : Nat) (base : String),
      freshenName used idx (used.length + 1) base ∉ used) ∧
    (∀ (used : List String) (idx fuel : Nat) (base : String),
      used.contains base = true →
      freshenName used idx (fuel + 1) base
        = freshenName used idx fuel (base ++ "_" ++ toString idx)) ∧
    (∀ (used : List String) (idx fuel : Nat) (base : String),
      used.contains base = false →
      freshenName used idx (fuel + 1) base = base) := by
  refine ⟨?_, ?_, ?_, ?_⟩
  · unfold normalizeHrefToPath
    dsimp only
    exact (scanPlainPlaceholders_inv _ _ _
      (scanEncodedRefs_inv _ _ { params := [], used := [], idx := 0 }
        ⟨List.nodup_nil, by simp⟩)).1
  · intro used idx base
    apply freshenName_not_mem
    have := used.length_filter_le (fun s => decide (base.length ≤ s.length))
    omega
  · intro used idx fuel base hc
    simp only [freshenName]
    rw [if_pos hc]
  · intro used idx fuel base hc
    simp only [freshenName]
    rw [if_neg (by rw [hc]; decide)]

/-- Concrete instance of the amended collision rule: two encoded
references that both sanitize to `a_b` yield the distinct parameters
`a_b` and `a_b_1`. -/
theorem normalizeHrefToPath_distinct_param_names_witness :
    ((normalizeHrefToPath id
      ("/x/{(%23%2Fdefinitions%2Fa%2Fdefinitions%2Fb)}/{(%23%2Fdefinitions%2Fa%2Fdefinitions%2Fb)}")).pathParams.map
        PathParameter.name).Nodup ∧
    ((normalizeHrefToPath id
      ("/x/{(%23%2Fdefinitions%2Fa%2Fdefinitions%2Fb)}/{(%23%2Fdefinitions%2Fa%2Fdefinitions%2Fb)}")).pathParams.map
        PathParameter.name) = ["a_b", "a_b_1"] := by
  refine ⟨(normalizeHrefToPath_distinct_param_names id _).1, ?_⟩
  decide

/-- C10: for every key that base64-decodes to exactly 32 bytes, and with
the platform AES-256-GCM and JSON codecs behaving as documented on the
record at hand (decryption inverts encryption under the same key, parsing
inverts stringification), `EncryptedTokenStore.set` followed by `get` of
the same user returns the stored record. -/
theorem tokenStore_get_after_set
    (c : CryptoFns) (keyBase64 : String) (store : TokenStore)
    (userId : String) (r : OAuthTokenRecord)
    (hkey : c.b64DecodedLen keyBase64 = 32)
    (hdec : c.aesGcmDecrypt keyBase64
        (c.aesGcmEncrypt keyBase64 (c.stringifyRecord r))
      = .ok (c.stringifyRecord r))
    (hparse : c.parseRecord (c.stringifyRecord r) = .ok r) :
    tokenStoreSet c keyBase64 store userId r
      = .ok (mapSet store userId
          (c.aesGcmEncrypt keyBase64 (c.stringifyRecord r))) ∧
    tokenStoreGet c keyBase64
      (mapSet store userId (c.aesGcmEncrypt keyBase64 (c.stringifyRecord r)))
      userId = .ok (some r) := by
  constructor
  · unfold tokenStoreSet encryptString
    rw [if_pos hkey]
    rfl
  · unfold tokenStoreGet
    have hfind : mapGet? (mapSet store userId
        (c.aesGcmEncrypt keyBase64 (c.stringifyRecord r))) userId
        = some (c.aesGcmEncrypt keyBase64 (c.stringifyRecord r)) := by
      rw [mapGet?_mapSet, if_pos rfl]
    rw [hfind]
    unfold decryptString
    dsimp only
    rw [if_pos hkey, hdec]
    dsimp only
    rw [hparse]

/-- Concrete codec stand-ins for the token-store witness: a fixed 32-byte
key length, an envelope that carries the plaintext, and a record codec
that is inverse on the fixture record. -/
def cryptoW : CryptoFns :=
  { b64DecodedLen := fun _ => 32,
    aesGcmEncrypt := fun _ v => { iv := "iv", tag := "tag", ciphertext := v },
    aesGcmDecrypt := fun _ p => .ok p.ciphertext,
    stringifyRecord := fun r => r.accessToken,
    parseRecord := fun s =>
      .ok { accessToken := s, tokenType := "Bearer", scope := ["global"],
            obtainedAt := "2026-01-01T00:00:00Z" } }

/-- Fixture OAuth record. -/
def recW : OAuthTokenRecord :=
  { accessToken := "heroku-token", tokenType := "Bearer", scope := ["global"],
    obtainedAt := "2026-01-01T00:00:00Z" }

/-- Concrete instance of the round trip on an empty store. -/
theorem tokenStore_get_after_set_witness :
    cryptoW.b64DecodedLen ("key") = 32 ∧
    tokenStoreSet cryptoW ("key") [] ("default") recW
      = .ok (mapSet [] ("default")
          (cryptoW.aesGcmEncrypt ("key") (cryptoW.stringifyRecord recW))) ∧
    tokenStoreGet cryptoW ("key")
      (mapSet [] ("default")
        (cryptoW.aesGcmEncrypt ("key") (cryptoW.stringifyRecord recW)))
      ("default") = .ok (some recW) := by
  have h := tokenStore_get_after_set cryptoW ("key") [] ("default") recW
    rfl rfl rfl
  exact ⟨rfl, h.1, h.2⟩

/-- Duplicate-freedom of a key list, decidably. -/
def listNodupB : List String → Bool
  | [] => true
  | k :: rest => !rest.contains k && listNodupB rest

/-- The Boolean duplicate check coincides with `List.Nodup`. -/
theorem listNodupB_iff : ∀ l : List String, listNodupB l = true ↔ l.Nodup := by
  intro l
  induction l with
  | nil => simp [listNodupB]
  | cons k rest ih => simp [listNodupB, List.nodup_cons, ih]

mutual

/-- Well-formedness of a modelled JS value: every object on every level
has pairwise-distinct keys (as every actual JS object does). -/
def jsonWF : Json → Bool
  | .arr items => jsonWFList items
  | .obj fields => listNodupB (fields.map Prod.fst) && jsonWFFields fields
  | _ => true

def jsonWFList : List Json → Bool
  | [] => true
  | x :: rest => jsonWF x && jsonWFList rest

def jsonWFFields : List (String × Json) → Bool
  | [] => true
  | (_, v) :: rest => jsonWF v && jsonWFFields rest

end

mutual

/-- Equality of JS values up to object key ordering: primitives compare
by value, arrays pointwise in order, and objects by key set — equal field
counts and, for every field of the left object, an equivalent value under
the same key in the right one. -/
def jsonEquivB : Json → Json → Bool
  | .null, .null => true
  | .bool a, .bool b => a == b
  | .num a, .num b => a == b
  | .str a, .str b => a == b
  | .arr xs, .arr ys => jsonEquivBList xs ys
  | .obj fs, .obj gs => (fs.length == gs.length) && jsonEquivBFields fs gs
  | _, _ => false

def jsonEquivBList : List Json → List Json → Bool
  | [], [] => true
  | x :: xs, y :: ys => jsonEquivB x y && jsonEquivBList xs ys
  | _, _ => false

def jsonEquivBFields : List (String × Json) → List (String × Json) → Bool
  | [], _ => true
  | (k, v) :: rest, gs =>
      (match mapGet? gs k with
       | some v2 => jsonEquivB v v2
       | none => false) && jsonEquivBFields rest gs

end

/-- Totality of the character-list comparison. -/
theorem charListLe_total : ∀ a b, charListLe a b = true ∨ charListLe b a = true := by
  intro a
  induction a with
  | nil => intro b; left; simp [charListLe]
  | cons x xs ih =>
      intro b
      cases b with
      | nil => right; simp [charListLe]
      | cons y ys =>
          by_cases hxy : x = y
          · subst hxy
            rcases ih ys with h | h
            · left; simpa [charListLe] using h
            · right; simpa [charListLe] using h
          · rcases lt_or_gt_of_ne hxy with h | h
            · left; simp [charListLe, hxy, h]
            · right; simp [charListLe, Ne.symm hxy, h, not_lt_of_gt h]

/-- Transitivity of the character-list comparison. -/
theorem charListLe_trans :
    ∀ a b c, charListLe a b = true → charListLe b c = true →
      charListLe a c = true := by
  intro a
  induction a with
  | nil => intro b c _ _; simp [charListLe]
  | cons x xs ih =>
      intro b c h1 h2
      cases b with
      | nil => simp [charListLe] at h1
      | cons y ys =>
          cases c with
          | nil => simp [charListLe] at h2
          | cons z zs =>
              simp only [charListLe] at h1 h2 ⊢
              by_cases hxy : x = y
              · subst hxy
                rw [if_pos rfl] at h1
                by_cases hyz : x = z
                · subst hyz
                  rw [if_pos rfl] at h2 ⊢
                  exact ih ys zs h1 h2
                · rw [if_neg hyz] at h2 ⊢
                  exact h2
              · rw [if_neg hxy] at h1
                have hlt1 : x < y := of_decide_eq_true h1
                by_cases hyz : y = z
                · subst hyz
                  rw [if_neg hxy]
                  exact decide_eq_true hlt1
                · rw [if_neg hyz] at h2
                  have hlt2 : y < z := of_decide_eq_true h2
                  have hlt : x < z := lt_trans hlt1 hlt2
                  rw [if_neg (ne_of_lt hlt)]
                  exact decide_eq_true hlt

/-- Antisymmetry of the character-list comparison. -/
theorem charListLe_antisymm :
    ∀ a b, charListLe a b = true → charListLe b a = true → a = b := by
  intro a
  induction a with
  | nil =>
      intro b h1 h2
      cases b with
      | nil => rfl
      | cons y ys => simp [charListLe] at h2
  | cons x xs ih =>
      intro b h1 h2
      cases b with
      | nil => simp [charListLe] at h1
      | cons y ys =>
          simp only [charListLe] at h1 h2
          by_cases hxy : x = y
          · subst hxy
            rw [if_pos rfl] at h1 h2
            rw [ih ys h1 h2]
          · rw [if_neg hxy] at h1
            rw [if_neg (Ne.symm hxy)] at h2
            exact absurd (of_decide_eq_true h2)
              (lt_asymm (of_decide_eq_true h1))

/-- The JS sort order is total. -/
instance : IsTotal String (fun a b => strLe a b = true) :=
  ⟨fun a b => charListLe_total a.toList b.toList⟩

/-- The JS sort order is transitive. -/
instance : IsTrans String (fun a b => strLe a b = true) :=
  ⟨fun a b c => charListLe_trans a.toList b.toList c.toList⟩

/-- The JS sort order is antisymmetric. -/
instance : IsAntisymm String (fun a b => strLe a b = true) :=
  ⟨fun a b h1 h2 => by
    have h3 := charListLe_antisymm a.toList b.toList h1 h2
    cases a with | mk da =>
    cases b with | mk db =>
    exact congrArg String.mk h3⟩

/-- `stableStringifyList` is the elementwise map: array order is kept. -/
theorem stableStringifyList_eq_map :
    ∀ items : List Json, stableStringifyList items = items.map stableStringify := by
  intro items
  induction items with
  | nil => rfl
  | cons x rest ih => simp only [stableStringifyList, List.map_cons, ih]

/-- Looking a key up among the stringified fields is stringifying the
value the key held. -/
theorem stableStringifyFields_get :
    ∀ (fs : List (String × Json)) (k : String),
      mapGet? (stableStringifyFields fs) k = (mapGet? fs k).map stableStringify := by
  intro fs k
  induction fs with
  | nil => rfl
  | cons kv rest ih =>
      obtain ⟨k', v⟩ := kv
      simp only [stableStringifyFields]
      rw [mapGet?_cons, mapGet?_cons]
      by_cases h : k' = k
      · rw [if_pos h, if_pos h]; rfl
      · rw [if_neg h, if_neg h]; exact ih

/-- Every element of a well-formed array is well-formed. -/
theorem jsonWFList_forall :
    ∀ xs : List Json, jsonWFList xs = true → ∀ x ∈ xs, jsonWF x = true := by
  intro xs
  induction xs with
  | nil => intro _ x hx; exact absurd hx (by simp)
  | cons y rest ih =>
      intro h x hx
      simp only [jsonWFList, Bool.and_eq_true] at h
      rcases List.mem_cons.mp hx with h1 | h1
      · rw [h1]; exact h.1
      · exact ih h.2 x h1

/-- Every field value of a well-formed object is well-formed. -/
theorem jsonWFFields_forall :
    ∀ fs : List (String × Json), jsonWFFields fs = true →
      ∀ kv ∈ fs, jsonWF kv.2 = true := by
  intro fs
  induction fs with
  | nil => intro _ kv hkv; exact absurd hkv (by simp)
  | cons kv0 rest ih =>
      intro h kv hkv
      obtain ⟨k0, v0⟩ := kv0
      simp only [jsonWFFields, Bool.and_eq_true] at h
      rcases List.mem_cons.mp hkv with h1 | h1
      · rw [h1]; exact h.1
      · exact ih h.2 kv h1

/-- Field-set equivalence read pointwise: every left field's key resolves
in the right object to an equivalent value. -/
theorem jsonEquivBFields_forall :
    ∀ (fs gs : List (String × Json)), jsonEquivBFields fs gs = true →
      ∀ kv ∈ fs, ∃ v2, mapGet? gs kv.1 = some v2 ∧ jsonEquivB kv.2 v2 = true := by
  intro fs gs
  induction fs with
  | nil => intro _ kv hkv; exact absurd hkv (by simp)
  | cons kv0 rest ih =>
      intro h kv hkv
      obtain ⟨k0, v0⟩ := kv0
      simp only [jsonEquivBFields, Bool.and_eq_true] at h
      rcases List.mem_cons.mp hkv with h1 | h1
      · subst h1
        cases hget : mapGet? gs k0 with
        | none => rw [hget] at h; exact absurd h.1 (by simp)
        | some v2 =>
            rw [hget] at h
            exact ⟨v2, rfl, h.1⟩
      · exact ih h.2 kv h1

/-- A key listed among an association list's keys has a binding. -/
theorem mapGet?_isSome_of_mem_keys {α : Type} :
    ∀ (m : List (String × α)) (k : String), k ∈ m.map Prod.fst →
      ∃ v, mapGet? m k = some v := by
  intro m k
  induction m with
  | nil => intro h; exact absurd h (by simp)
  | cons kv rest ih =>
      intro h
      obtain ⟨k', v'⟩ := kv
      rw [mapGet?_cons]
      by_cases hk : k' = k
      · rw [if_pos hk]; exact ⟨v', rfl⟩
      · rw [if_neg hk]
        apply ih
        simp only [List.map_cons, List.mem_cons] at h
        rcases h with h | h
        · exact absurd h.symm hk
        · exact h

/-- A key with a binding is among the keys. -/
theorem mem_keys_of_mapGet? {α : Type} (m : List (String × α)) (k : String)
    (v : α) (h : mapGet? m k = some v) : k ∈ m.map Prod.fst :=
  List.mem_map.mpr ⟨(k, v), mapGet?_mem m k v h, rfl⟩

/-- Key-order independence of the deterministic serializer: two
well-formed values that are equal up to object key ordering stringify to
the same byte string. -/
theorem stableStringify_congr :
    ∀ a b : Json, jsonWF a = true → jsonWF b = true → jsonEquivB a b = true →
      stableStringify a = stableStringify b := by
  intro a
  induction a using Json.strongInduction with
  | hnull =>
      intro b _ _ he
      cases b with
      | null => rfl
      | bool b0 => exact absurd he (by simp [jsonEquivB])
      | num n0 => exact absurd he (by simp [jsonEquivB])
      | str s0 => exact absurd he (by simp [jsonEquivB])
      | arr ys => exact absurd he (by simp [jsonEquivB])
      | obj gs => exact absurd he (by simp [jsonEquivB])
  | hbool a0 =>
      intro b _ _ he
      cases b with
      | bool b0 =>
          simp only [jsonEquivB, beq_iff_eq] at he
          rw [he]
      | null => exact absurd he (by simp [jsonEquivB])
      | num n0 => exact absurd he (by simp [jsonEquivB])
      | str s0 => exact absurd he (by simp [jsonEquivB])
      | arr ys => exact absurd he (by simp [jsonEquivB])
      | obj gs => exact absurd he (by simp [jsonEquivB])
  | hnum a0 =>
      intro b _ _ he
      cases b with
      | num n0 =>
          simp only [jsonEquivB, beq_iff_eq] at he
          rw [he]
      | null => exact absurd he (by simp [jsonEquivB])
      | bool b0 => exact absurd he (by simp [jsonEquivB])
      | str s0 => exact absurd he (by simp [jsonEquivB])
      | arr ys => exact absurd he (by simp [jsonEquivB])
      | obj gs => exact absurd he (by simp [jsonEquivB])
  | hstr a0 =>
      intro b _ _ he
      cases b with
      | str s0 =>
          simp only [jsonEquivB, beq_iff_eq] at he
          rw [he]
      | null => exact absurd he (by simp [jsonEquivB])
      | bool b0 => exact absurd he (by simp [jsonEquivB])
      | num n0 => exact absurd he (by simp [jsonEquivB])
      | arr ys => exact absurd he (by simp [jsonEquivB])
      | obj gs => exact absurd he (by simp [jsonEquivB])
  | harr xs ih =>
      intro b hwa hwb he
      cases b with
      | arr ys =>
          simp only [jsonEquivB] at he
          simp only [jsonWF] at hwa hwb
          simp only [stableStringify]
          have hlists : ∀ (xs2 ys2 : List Json),
              (∀ x ∈ xs2, ∀ c, jsonWF x = true → jsonWF c = true →
                jsonEquivB x c = true → stableStringify x = stableStringify c) →
              jsonWFList xs2 = true → jsonWFList ys2 = true →
              jsonEquivBList xs2 ys2 = true →
              stableStringifyList xs2 = stableStringifyList ys2 := by
            intro xs2
            induction xs2 with
            | nil =>
                intro ys2 _ _ _ h
                cases ys2 with
                | nil => rfl
                | cons y t => exact absurd h (by simp [jsonEquivBList])
            | cons x t ihx =>
                intro ys2 ihmem hw1 hw2 h
                cases ys2 with
                | nil => exact absurd h (by simp [jsonEquivBList])
                | cons y t2 =>
                    simp only [jsonEquivBList, Bool.and_eq_true] at h
                    simp only [jsonWFList, Bool.and_eq_true] at hw1 hw2
                    simp only [stableStringifyList]
                    rw [ihmem x (by simp) y hw1.1 hw2.1 h.1,
                      ihx t2 (fun z hz => ihmem z (by simp [hz])) hw1.2 hw2.2 h.2]
          rw [hlists xs ys ih hwa hwb he]
      | null => exact absurd he (by simp [jsonEquivB])
      | bool b0 => exact absurd he (by simp [jsonEquivB])
      | num n0 => exact absurd he (by simp [jsonEquivB])
      | str s0 => exact absurd he (by simp [jsonEquivB])
      | obj gs => exact absurd he (by simp [jsonEquivB])
  | hobj fs1 ih =>
      intro b hwa hwb he
      cases b with
      | obj fs2 =>
          simp only [jsonEquivB, Bool.and_eq_true, beq_iff_eq] at he
          obtain ⟨hlen, hfields⟩ := he
          simp only [jsonWF, Bool.and_eq_true] at hwa hwb
          obtain ⟨hnod1, hv1f⟩ := hwa
          obtain ⟨_, hv2f⟩ := hwb
          have hsub : fs1.map Prod.fst ⊆ fs2.map Prod.fst := by
            intro k hk
            obtain ⟨v1, hv1⟩ := mapGet?_isSome_of_mem_keys fs1 k hk
            obtain ⟨v2, hv2, _⟩ :=
              jsonEquivBFields_forall fs1 fs2 hfields (k, v1) (mapGet?_mem fs1 k v1 hv1)
            exact mem_keys_of_mapGet? fs2 k v2 hv2
          have hperm : (fs1.map Prod.fst).Perm (fs2.map Prod.fst) :=
            List.Subperm.perm_of_length_le
              (List.Nodup.subperm ((listNodupB_iff _).mp hnod1) hsub)
              (by simp [List.length_map, hlen])
          have hsort : sortKeysJS (fs1.map Prod.fst) = sortKeysJS (fs2.map Prod.fst) := by
            simp only [sortKeysJS]
            exact List.eq_of_perm_of_sorted
              ((List.perm_insertionSort _ _).trans
                (hperm.trans (List.perm_insertionSort _ _).symm))
              (List.sorted_insertionSort _ _) (List.sorted_insertionSort _ _)
          simp only [stableStringify]
          rw [hsort]
          have hmap : ∀ k ∈ sortKeysJS (fs2.map Prod.fst),
              jsonStringifyString k ++ ":"
                  ++ ((mapGet? (stableStringifyFields fs1) k).getD ("null"))
                = jsonStringifyString k ++ ":"
                  ++ ((mapGet? (stableStringifyFields fs2) k).getD ("null")) := by
            intro k hk
            rw [← hsort] at hk
            have hk1 : k ∈ fs1.map Prod.fst := by
              have := (List.perm_insertionSort
                (fun a b => strLe a b = true) (fs1.map Prod.fst)).mem_iff (a := k)
              exact this.mp (by simpa [sortKeysJS] using hk)
            obtain ⟨v1, hv1⟩ := mapGet?_isSome_of_mem_keys fs1 k hk1
            have hmem1 : (k, v1) ∈ fs1 := mapGet?_mem fs1 k v1 hv1
            obtain ⟨v2, hv2, heqv⟩ :=
              jsonEquivBFields_forall fs1 fs2 hfields (k, v1) hmem1
            have hmem2 : (k, v2) ∈ fs2 := mapGet?_mem fs2 k v2 hv2
            have hval : stableStringify v1 = stableStringify v2 :=
              ih (k, v1) hmem1 v2 (jsonWFFields_forall fs1 hv1f (k, v1) hmem1)
                (jsonWFFields_forall fs2 hv2f (k, v2) hmem2) heqv
            rw [stableStringifyFields_get, stableStringifyFields_get, hv1, hv2]
            simp only [Option.map_some', Option.getD_some, hval]
          rw [List.map_congr_left hmap]
      | null => exact absurd he (by simp [jsonEquivB])
      | bool b0 => exact absurd he (by simp [jsonEquivB])
      | num n0 => exact absurd he (by simp [jsonEquivB])
      | str s0 => exact absurd he (by simp [jsonEquivB])
      | arr ys => exact absurd he (by simp [jsonEquivB])

/-- C3: for every HMAC primitive, secret, user id and operation id, two
inputs whose path params, query params and bodies are equal as JSON values
up to object key ordering (arrays compared in order; the well-formedness
hypotheses say only that the JS objects involved have duplicate-free keys,
as all JS objects do) receive the same confirmation token; moreover
`stableStringify` preserves array order (it maps the serializer over the
items) and emits every object's keys sorted ascending in the JS string
order (the emitted key list is a sorted permutation of the field keys). -/
theorem writeConfirmationToken_deterministic
    (hmac : String → String → String)
    (secret userId operationId : String)
    (pp1 pp2 : List (String × String)) (qp1 qp2 : List (String × Json))
    (b1 b2 : Json)
    (hwp1 : jsonWF (pathParamsJson pp1) = true)
    (hwp2 : jsonWF (pathParamsJson pp2) = true)
    (hwq1 : jsonWF (queryParamsJson qp1) = true)
    (hwq2 : jsonWF (queryParamsJson qp2) = true)
    (hwb1 : jsonWF b1 = true) (hwb2 : jsonWF b2 = true)
    (hep : jsonEquivB (pathParamsJson pp1) (pathParamsJson pp2) = true)
    (heq : jsonEquivB (queryParamsJson qp1) (queryParamsJson qp2) = true)
    (heb : jsonEquivB b1 b2 = true) :
    createWriteConfirmationToken hmac
        { secret := secret, userId := userId, operationId := operationId,
          pathParams := pp1, queryParams := qp1, body := b1 }
      = createWriteConfirmationToken hmac
        { secret := secret, userId := userId, operationId := operationId,
          pathParams := pp2, queryParams := qp2, body := b2 }
    ∧ (∀ items : List Json, stableStringifyList items = items.map stableStringify)
    ∧ (∀ fields : List (String × Json),
        List.Sorted (fun a b => strLe a b = true) (sortKeysJS (fields.map Prod.fst))
        ∧ (sortKeysJS (fields.map Prod.fst)).Perm (fields.map Prod.fst)) := by
  refine ⟨?_, stableStringifyList_eq_map, ?_⟩
  · have h1 := stableStringify_congr _ _ hwp1 hwp2 hep
    have h2 := stableStringify_congr _ _ hwq1 hwq2 heq
    have h3 := stableStringify_congr _ _ hwb1 hwb2 heb
    simp only [createWriteConfirmationToken, h1, h2, h3]
  · intro fields
    exact ⟨List.sorted_insertionSort _ _, List.perm_insertionSort _ _⟩

/-- The determinism theorem at a concrete input: reordering the keys of
the path-param, query-param and (nested) body objects leaves the token
unchanged. -/
theorem writeConfirmationToken_deterministic_witness :
    createWriteConfirmationToken (fun s p => s ++ ("|") ++ p)
        { secret := "sec", userId := "u1", operationId := "POST /apps",
          pathParams := [(("b"), ("2")), (("a"), ("1"))],
          queryParams := [(("y"), .num 1), (("x"), .str ("v"))],
          body := .obj [(("k"), .arr [.null, .bool true]),
            (("j"), .obj [(("q"), .num 5), (("p"), .str ("w"))])] }
      = createWriteConfirmationToken (fun s p => s ++ ("|") ++ p)
        { secret := "sec", userId := "u1", operationId := "POST /apps",
          pathParams := [(("a"), ("1")), (("b"), ("2"))],
          queryParams := [(("x"), .str ("v")), (("y"), .num 1)],
          body := .obj [(("j"), .obj [(("p"), .str ("w")), (("q"), .num 5)]),
            (("k"), .arr [.null, .bool true])] } :=
  (writeConfirmationToken_deterministic (fun s p => s ++ ("|") ++ p)
    ("sec") ("u1") ("POST /apps")
    [(("b"), ("2")), (("a"), ("1"))] [(("a"), ("1")), (("b"), ("2"))]
    [(("y"), .num 1), (("x"), .str ("v"))] [(("x"), .str ("v")), (("y"), .num 1)]
    (.obj [(("k"), .arr [.null, .bool true]),
      (("j"), .obj [(("q"), .num 5), (("p"), .str ("w"))])])
    (.obj [(("j"), .obj [(("p"), .str ("w")), (("q"), .num 5)]),
      (("k"), .arr [.null, .bool true])])
    (by decide) (by decide) (by decide) (by decide) (by decide) (by decide)
    (by decide) (by decide) (by decide)).1

end HerokuMCP
